import Mathlib

/-!
Verification of the Nostr client core of this repository against its
specification.  The TypeScript sources are shallowly embedded: byte arrays
become `List Nat` (each entry `< 256` where the code guarantees it), strings
become `String` or `List Char`, fallible code returns `Except`/`Option`,
and the event-loop multiplexer becomes a step function driven by an explicit
arrival schedule.  External dependencies that are not part of the repository
(the bech32 library, the schnorr/sha256 primitives, `JSON.parse`, the relay
transport) are either modelled from the spec or taken as parameters.
-/

namespace HexEnc

/-- The explicit lowercase hex table of `src/nostr/encode.ts`:
`new TextEncoder().encode("0123456789abcdef")`, i.e. the UTF-8 bytes of the
sixteen hex digit characters. -/
def hexTable : List Nat := "0123456789abcdef".data.map Char.toNat

/-- One iteration of the loop body of `encode` in `src/nostr/encode.ts` at
loop index `i`:
`const v = src[i]; dst[i*2] = hexTable[v >> 4]; dst[i*2+1] = hexTable[v & 0x0f];`.
`src[i]` for `i ≥ src.length` is `undefined`, which `>>`/`&` coerce to `0`
(modelled by `getD _ 0`); a typed-array store at an out-of-bounds index is
silently dropped, which `List.set` models exactly. -/
def encStep (src : List Nat) (dst : List Nat) (i : Nat) : List Nat :=
  let v := src.getD i 0
  ((dst.set (i * 2) (hexTable.getD (v >>> 4) 0)).set (i * 2 + 1)
    (hexTable.getD (v &&& 0x0f) 0))

/-- `encode` of `src/nostr/encode.ts`: allocates `dst` of length
`src.length * 2` (zero-initialised, as `Uint8Array` is) and runs the loop for
`i = 0 .. dst.length - 1`. -/
def encode (src : List Nat) : List Nat :=
  (List.range (src.length * 2)).foldl (encStep src) (List.replicate (src.length * 2) 0)

end HexEnc

/-- The spec's words: the standard big-endian lowercase hex digit for a value
`< 16` ('0'..'9' then 'a'..'f'). -/
def hexDigitChar (v : Nat) : Char :=
  if v < 10 then Char.ofNat (48 + v) else Char.ofNat (97 + (v - 10))

/-- The spec's words: the standard big-endian lowercase hex rendering of a
byte sequence, two hex characters per byte (high nibble first). -/
def hexCharsOfBytes (bytes : List Nat) : List Char :=
  bytes.flatMap (fun b => [hexDigitChar (b / 16), hexDigitChar (b % 16)])

namespace Nostr

/-- `Nostr.hexChar` of `src/unnamed/part_001` (lines 389-394): returns a
character for `val < 16` and falls off the end (JS `undefined`) otherwise. -/
def hexChar (val : Nat) : Option Char :=
  if val < 10 then some (Char.ofNat (48 + val))
  else if val < 16 then some (Char.ofNat (97 + val - 10))
  else none

/-- JS `str += x` where `x : string | undefined`: appending `undefined`
stringifies it. -/
def strAppendJs (s : String) (c : Option Char) : String :=
  match c with
  | some ch => s.push ch
  | none => s ++ "undefined"

/-- `Nostr.hexEncode` of `src/unnamed/part_001` (lines 396-404):
`str += hexChar(c >> 4); str += hexChar(c & 0xF)` for each entry of `buf`. -/
def hexEncode (buf : List Nat) : String :=
  buf.foldl (fun str c =>
    strAppendJs (strAppendJs str (hexChar (c >>> 4))) (hexChar (c &&& 0xF))) ""

end Nostr

section HexLemmas

lemma hexTable_getD_eq (d : Nat) (hd : d < 16) :
    HexEnc.hexTable.getD d 0 = (hexDigitChar d).toNat := by
  interval_cases d <;> rfl

lemma shiftRight4_eq_div (v : Nat) : v >>> 4 = v / 16 := by
  simpa using Nat.shiftRight_eq_div_pow v 4

lemma and15_eq_mod (v : Nat) : v &&& 15 = v % 16 := by
  have h := Nat.and_pow_two_sub_one_eq_mod v 4
  simpa using h

lemma div16_lt (v : Nat) (hv : v < 256) : v / 16 < 16 := by omega

lemma set_append_right {α : Type} (l r : List α) (i : Nat) (a : α)
    (h : l.length ≤ i) : (l ++ r).set i a = l ++ r.set (i - l.length) a := by
  induction l generalizing i with
  | nil => simp
  | cons x xs ih =>
    cases i with
    | zero => simp at h
    | succ j =>
      have hj : xs.length ≤ j := by simpa using h
      have hidx : j + 1 - (x :: xs).length = j - xs.length := by
        simp only [List.length_cons]; omega
      simp only [List.cons_append, List.set_cons_succ, hidx, ih j hj]

lemma set_oob {α : Type} (l : List α) (i : Nat) (a : α)
    (h : l.length ≤ i) : l.set i a = l :=
  List.set_eq_of_length_le h

/-- The hex characters produced for the bytes of `src`, as byte values. -/
def hexNatsOfBytes (bytes : List Nat) : List Nat :=
  bytes.flatMap (fun b => [(hexDigitChar (b / 16)).toNat, (hexDigitChar (b % 16)).toNat])

lemma hexNatsOfBytes_eq (bytes : List Nat) :
    hexNatsOfBytes bytes = (hexCharsOfBytes bytes).map Char.toNat := by
  simp [hexNatsOfBytes, hexCharsOfBytes, List.map_flatMap]

lemma hexNatsOfBytes_length (bytes : List Nat) :
    (hexNatsOfBytes bytes).length = 2 * bytes.length := by
  induction bytes with
  | nil => rfl
  | cons b bs ih => simp only [hexNatsOfBytes, List.flatMap_cons] at ih ⊢
                    simp [ih]; ring

lemma encStep_length (src dst : List Nat) (i : Nat) :
    (HexEnc.encStep src dst i).length = dst.length := by
  simp [HexEnc.encStep]

lemma encStep_eq (src dst : List Nat) (i : Nat) :
    HexEnc.encStep src dst i =
      (dst.set (i * 2) (HexEnc.hexTable.getD ((src.getD i 0) >>> 4) 0)).set
        (i * 2 + 1) (HexEnc.hexTable.getD ((src.getD i 0) &&& 0x0f) 0) := rfl

lemma encStep_oob (src dst : List Nat) (i : Nat) (h : dst.length ≤ i * 2) :
    HexEnc.encStep src dst i = dst := by
  rw [encStep_eq, set_oob _ _ _ h, set_oob _ _ _ (by omega)]

lemma foldl_encStep_length (src : List Nat) (idxs : List Nat) (dst : List Nat) :
    (idxs.foldl (HexEnc.encStep src) dst).length = dst.length := by
  induction idxs generalizing dst with
  | nil => rfl
  | cons i is ih => simp [List.foldl_cons, ih, encStep_length]

lemma foldl_encStep_oob (src : List Nat) (idxs : List Nat) (dst : List Nat)
    (h : ∀ i ∈ idxs, dst.length ≤ i * 2) :
    idxs.foldl (HexEnc.encStep src) dst = dst := by
  induction idxs with
  | nil => rfl
  | cons i is ih =>
    rw [List.foldl_cons, encStep_oob _ _ _ (h i (by simp)),
      ih (fun j hj => h j (by simp [hj]))]

lemma encStep_at (src : List Nat) (k b : Nat) (hget : src.getD k 0 = b)
    (hk : k < src.length) (hb : b < 256) (pre : List Nat)
    (hpre : pre.length = 2 * k) :
    HexEnc.encStep src (pre ++ List.replicate (src.length * 2 - 2 * k) 0) k =
      (pre ++ [(hexDigitChar (b / 16)).toNat, (hexDigitChar (b % 16)).toNat]) ++
        List.replicate (src.length * 2 - 2 * (k + 1)) 0 := by
  have h1 : b >>> 4 = b / 16 := shiftRight4_eq_div b
  have h2 : b &&& 0x0f = b % 16 := and15_eq_mod b
  have hd1 : HexEnc.hexTable.getD (b / 16) 0 = (hexDigitChar (b / 16)).toNat :=
    hexTable_getD_eq _ (div16_lt b hb)
  have hd2 : HexEnc.hexTable.getD (b % 16) 0 = (hexDigitChar (b % 16)).toNat :=
    hexTable_getD_eq _ (by omega)
  have hrep : src.length * 2 - 2 * k = src.length * 2 - 2 * k - 2 + 1 + 1 := by
    omega
  rw [encStep_eq, hget, h1, h2, hd1, hd2]
  rw [set_append_right _ _ _ _ (by omega), set_append_right _ _ _ _ (by omega)]
  rw [hrep, List.replicate_succ, List.replicate_succ]
  have e1 : k * 2 - pre.length = 0 := by omega
  have e2 : k * 2 + 1 - pre.length = 1 := by omega
  rw [e1, e2]
  simp only [List.set_cons_zero, List.set_cons_succ]
  have e3 : src.length * 2 - 2 * (k + 1) = src.length * 2 - 2 * k - 2 := by omega
  rw [e3]
  simp

lemma foldl_encStep_init (src : List Nat) (h : ∀ b ∈ src, b < 256) :
    ∀ k, k ≤ src.length →
      (List.range k).foldl (HexEnc.encStep src)
          (List.replicate (src.length * 2) 0) =
        hexNatsOfBytes (src.take k) ++
          List.replicate (src.length * 2 - 2 * k) 0 := by
  intro k
  induction k with
  | zero => simp [hexNatsOfBytes]
  | succ k ih =>
    intro hk
    have hk' : k < src.length := by omega
    have hgetD : src.getD k 0 = src[k] := List.getD_eq_getElem src 0 hk'
    have hb : src[k] < 256 := h _ (src.getElem_mem hk')
    rw [List.range_succ, List.foldl_append, ih (by omega)]
    simp only [List.foldl_cons, List.foldl_nil]
    have hlen : (hexNatsOfBytes (src.take k)).length = 2 * k := by
      rw [hexNatsOfBytes_length, List.length_take]; omega
    rw [encStep_at src k src[k] hgetD hk' hb _ hlen]
    have htake : src.take (k + 1) = src.take k ++ [src[k]] := by
      rw [List.take_succ]
      simp [List.getElem?_eq_getElem hk']
    rw [htake]
    simp only [hexNatsOfBytes, List.flatMap_append, List.flatMap_cons,
      List.flatMap_nil, List.append_nil, List.append_assoc, List.cons_append,
      List.nil_append]

lemma encode_eq_hexNats (src : List Nat) (h : ∀ b ∈ src, b < 256) :
    HexEnc.encode src = hexNatsOfBytes src := by
  unfold HexEnc.encode
  have hsplit : List.range (src.length * 2) =
      List.range src.length ++ (List.range src.length).map (src.length + ·) := by
    rw [show src.length * 2 = src.length + src.length by ring, List.range_add]
  rw [hsplit, List.foldl_append]
  rw [foldl_encStep_init src h src.length (le_refl _)]
  rw [List.take_length, show src.length * 2 - 2 * src.length = 0 by omega]
  rw [List.replicate_zero, List.append_nil]
  rw [foldl_encStep_oob]
  intro i hi
  simp only [List.mem_map, List.mem_range] at hi
  obtain ⟨j, _, rfl⟩ := hi
  rw [hexNatsOfBytes_length]
  omega

lemma hexChar_lt16 (d : Nat) (hd : d < 16) :
    Nostr.hexChar d = some (hexDigitChar d) := by
  unfold Nostr.hexChar hexDigitChar
  by_cases h10 : d < 10
  · simp [h10]
  · have : 97 + d - 10 = 97 + (d - 10) := by omega
    simp [h10, hd, this]

lemma hexEncode_data (buf : List Nat) (h : ∀ b ∈ buf, b < 256) :
    ∀ s : String,
      (buf.foldl (fun str c =>
        Nostr.strAppendJs (Nostr.strAppendJs str (Nostr.hexChar (c >>> 4)))
          (Nostr.hexChar (c &&& 0xF))) s).data = s.data ++ hexCharsOfBytes buf := by
  induction buf with
  | nil => intro s; simp [hexCharsOfBytes]
  | cons b bs ih =>
    intro s
    have hb : b < 256 := h b (by simp)
    have h1 : b >>> 4 = b / 16 := shiftRight4_eq_div b
    have h2 : b &&& 0xF = b % 16 := and15_eq_mod b
    rw [List.foldl_cons, ih (fun x hx => h x (by simp [hx]))]
    rw [h1, h2]
    rw [hexChar_lt16 _ (div16_lt b hb), hexChar_lt16 _ (by omega)]
    simp [Nostr.strAppendJs, String.push, hexCharsOfBytes]

end HexLemmas

/-- C7: each of the two explicit-table hex encoders (`encode` of
`src/nostr/encode.ts` and `Nostr.hexEncode`) produces exactly two lowercase
hex characters per input byte, output length exactly twice the input length,
equal to the standard big-endian hex rendering of the bytes. -/
theorem C7_hex_encoders (src : List Nat) (h : ∀ b ∈ src, b < 256) :
    HexEnc.encode src = (hexCharsOfBytes src).map Char.toNat ∧
    (HexEnc.encode src).length = 2 * src.length ∧
    (Nostr.hexEncode src).data = hexCharsOfBytes src ∧
    (hexCharsOfBytes src).length = 2 * src.length ∧
    ∀ c ∈ hexCharsOfBytes src, c ∈ "0123456789abcdef".data := by
  have he : HexEnc.encode src = (hexCharsOfBytes src).map Char.toNat := by
    rw [encode_eq_hexNats src h, hexNatsOfBytes_eq]
  have hlen : (hexCharsOfBytes src).length = 2 * src.length := by
    have := hexNatsOfBytes_length src
    rw [hexNatsOfBytes_eq] at this
    simpa using this
  refine ⟨he, ?_, ?_, hlen, ?_⟩
  · rw [he]; simpa using hlen
  · exact hexEncode_data src h ""
  · intro c hc
    simp only [hexCharsOfBytes, List.mem_flatMap] at hc
    obtain ⟨b, hb, hcmem⟩ := hc
    have hb256 : b < 256 := h b hb
    have : ∀ d : Nat, d < 16 → hexDigitChar d ∈ "0123456789abcdef".data := by
      decide
    simp only [List.mem_cons, List.mem_singleton] at hcmem
    rcases hcmem with rfl | rfl | hfalse
    · exact this _ (div16_lt b hb256)
    · exact this _ (by omega)
    · exact absurd hfalse (by simp)

/-- Witness for C7 at the concrete byte array `[0, 171, 255]`
(hex `00abff`). -/
theorem C7_hex_encoders_witness :
    Nostr.hexEncode [0, 171, 255] = "00abff" ∧
    (HexEnc.encode [0, 171, 255] = (hexCharsOfBytes [0, 171, 255]).map Char.toNat ∧
     (HexEnc.encode [0, 171, 255]).length = 2 * ([0, 171, 255] : List Nat).length ∧
     (Nostr.hexEncode [0, 171, 255]).data = hexCharsOfBytes [0, 171, 255] ∧
     (hexCharsOfBytes [0, 171, 255]).length = 2 * ([0, 171, 255] : List Nat).length ∧
     ∀ c ∈ hexCharsOfBytes [0, 171, 255], c ∈ "0123456789abcdef".data) :=
  ⟨by decide, C7_hex_encoders [0, 171, 255] (by decide)⟩

namespace Nostr

/-- The `NostrEvent` record of the relay interface (`src/unnamed/part_001`
imports it from `relay.ts`): `{id, pubkey, created_at, kind, tags, content,
sig}`. -/
structure NostrEvent where
  id : String
  pubkey : String
  created_at : Nat
  kind : Nat
  tags : List (List String)
  content : String
  sig : String
deriving DecidableEq, Repr

/-- Measure for the multiplexer loop of `Nostr.filter`: every loop round
either consumes one item of one source or removes one exhausted source, so
the sum of `length + 1` over the active sources strictly decreases. -/
def muxMeasure (sources : List (List NostrEvent)) : Nat :=
  (sources.map (fun s => s.length + 1)).sum

/-- The async-iterator loop of `Nostr.filter` (`src/unnamed/part_001`,
lines 187-213), shallowly embedded.  Each relay iterator is the list of
items it will produce (every source eventually reports exhaustion, which the
relay contract of the spec guarantees for the finite queries; spec-modelled,
`relay.ts` is not under `src/`).  The `Promise.race` over the pending
`next()` operations — one per active source — is resolved by the arrival
schedule `σ`: at loop round `step`, the pending operation of source
`σ step % sources.length` completes first.  A completed `done` removes the
source and its pending slot (`splice` on both arrays); otherwise the item is
yielded unless `unique` dedup suppresses it, and exactly that source is
re-armed with a new `next()`.  `fuel` bounds the rounds; `none` means the
fuel ran out before the active set emptied. -/
def muxRun (unique : Bool) (σ : Nat → Nat) :
    Nat → Nat → List (List NostrEvent) → List String → Option (List NostrEvent)
  | 0, _, sources, _ => if sources.isEmpty then some [] else none
  | fuel + 1, step, sources, yielded =>
    if sources.isEmpty then some []
    else
      let i := σ step % sources.length
      match sources.getD i [] with
      | [] => muxRun unique σ fuel (step + 1) (sources.eraseIdx i) yielded
      | e :: rest =>
        let sources' := sources.set i rest
        if !unique || !(yielded.contains e.id) then
          (muxRun unique σ fuel (step + 1) sources'
            (if unique then yielded ++ [e.id] else yielded)).map (e :: ·)
        else
          muxRun unique σ fuel (step + 1) sources' yielded

/-- `Nostr.filter(filters, unique)` iterated to completion over the given
relay-iterator contents under arrival schedule `σ` (this is also what
`collect()` returns). -/
def filterMux (unique : Bool) (sources : List (List NostrEvent))
    (σ : Nat → Nat) : Option (List NostrEvent) :=
  muxRun unique σ (muxMeasure sources) 0 sources []

/-- First-arrival deduplication, the spec's words: keep an item only when
its identifier has not been seen before. -/
def dedupFirst (seen : List String) : List NostrEvent → List NostrEvent
  | [] => []
  | e :: es =>
    if seen.contains e.id then dedupFirst seen es
    else e :: dedupFirst (seen ++ [e.id]) es

end Nostr

section MuxLemmas

open Nostr

lemma muxMeasure_cons (s : List NostrEvent) (ss : List (List NostrEvent)) :
    muxMeasure (s :: ss) = s.length + 1 + muxMeasure ss := by
  simp [muxMeasure]

lemma muxMeasure_eraseIdx (ss : List (List NostrEvent)) :
    ∀ i, i < ss.length → muxMeasure (ss.eraseIdx i) < muxMeasure ss := by
  induction ss with
  | nil => intro i hi; simp at hi
  | cons s tl ih =>
    intro i hi
    cases i with
    | zero =>
      rw [List.eraseIdx_cons_zero, muxMeasure_cons]
      omega
    | succ j =>
      have := ih j (by simpa using hi)
      rw [List.eraseIdx_cons_succ, muxMeasure_cons, muxMeasure_cons]
      omega

lemma muxMeasure_set (ss : List (List NostrEvent)) :
    ∀ i e rest, i < ss.length → ss.getD i [] = e :: rest →
      muxMeasure (ss.set i rest) < muxMeasure ss := by
  induction ss with
  | nil => intro i e rest hi; simp at hi
  | cons s tl ih =>
    intro i e rest hi hget
    cases i with
    | zero =>
      simp only [List.getD_cons_zero] at hget
      subst hget
      rw [List.set_cons_zero, muxMeasure_cons, muxMeasure_cons]
      simp only [List.length_cons]
      omega
    | succ j =>
      have := ih j e rest (by simpa using hi) (by simpa using hget)
      rw [List.set_cons_succ, muxMeasure_cons, muxMeasure_cons]
      omega

lemma flatten_eraseIdx_of_empty (ss : List (List NostrEvent)) :
    ∀ i, i < ss.length → ss.getD i [] = [] →
      (ss.eraseIdx i).flatten = ss.flatten := by
  induction ss with
  | nil => intro i hi; simp at hi
  | cons s tl ih =>
    intro i hi hget
    cases i with
    | zero =>
      simp only [List.getD_cons_zero] at hget
      subst hget
      simp [List.eraseIdx]
    | succ j =>
      rw [List.eraseIdx_cons_succ, List.flatten_cons, List.flatten_cons,
        ih j (by simpa using hi) (by simpa using hget)]

lemma flatten_set_perm (ss : List (List NostrEvent)) :
    ∀ i e rest, i < ss.length → ss.getD i [] = e :: rest →
      ss.flatten.Perm (e :: (ss.set i rest).flatten) := by
  induction ss with
  | nil => intro i e rest hi; simp at hi
  | cons s tl ih =>
    intro i e rest hi hget
    cases i with
    | zero =>
      simp only [List.getD_cons_zero] at hget
      subst hget
      simp [List.set_cons_zero, List.flatten_cons]
    | succ j =>
      have hperm := ih j e rest (by simpa using hi) (by simpa using hget)
      rw [List.set_cons_succ, List.flatten_cons, List.flatten_cons]
      exact (hperm.append_left s).trans List.perm_middle

end MuxLemmas

section MuxRunLemmas

open Nostr

lemma muxRun_zero (u : Bool) (σ : Nat → Nat) (step : Nat)
    (ss : List (List NostrEvent)) (ys : List String) :
    muxRun u σ 0 step ss ys = if ss.isEmpty then some [] else none := rfl

lemma muxRun_succ_cons (u : Bool) (σ : Nat → Nat) (fuel step : Nat)
    (s : List NostrEvent) (tl : List (List NostrEvent)) (ys : List String) :
    muxRun u σ (fuel + 1) step (s :: tl) ys =
      (match (s :: tl).getD (σ step % (s :: tl).length) [] with
       | [] =>
         muxRun u σ fuel (step + 1)
           ((s :: tl).eraseIdx (σ step % (s :: tl).length)) ys
       | e :: rest =>
         if !u || !(ys.contains e.id) then
           (muxRun u σ fuel (step + 1)
             ((s :: tl).set (σ step % (s :: tl).length) rest)
             (if u then ys ++ [e.id] else ys)).map (e :: ·)
         else
           muxRun u σ fuel (step + 1)
             ((s :: tl).set (σ step % (s :: tl).length) rest) ys) := rfl

lemma muxRun_total (u : Bool) (σ : Nat → Nat) :
    ∀ fuel step ss ys, muxMeasure ss ≤ fuel →
      ∃ out, muxRun u σ fuel step ss ys = some out := by
  intro fuel
  induction fuel with
  | zero =>
    intro step ss ys hm
    cases ss with
    | nil => exact ⟨[], rfl⟩
    | cons s tl => rw [muxMeasure_cons] at hm; omega
  | succ fuel ih =>
    intro step ss ys hm
    cases ss with
    | nil => exact ⟨[], rfl⟩
    | cons s tl =>
      rw [muxRun_succ_cons]
      have hilt : σ step % (s :: tl).length < (s :: tl).length :=
        Nat.mod_lt _ (by simp)
      cases hget : (s :: tl).getD (σ step % (s :: tl).length) [] with
      | nil =>
        simp only [hget]
        apply ih
        have := muxMeasure_eraseIdx (s :: tl) _ hilt
        omega
      | cons e rest =>
        simp only [hget]
        have hmset : muxMeasure ((s :: tl).set (σ step % (s :: tl).length) rest) ≤ fuel := by
          have := muxMeasure_set (s :: tl) _ e rest hilt hget
          omega
        by_cases hc : (!u || !(ys.contains e.id)) = true
        · rw [if_pos hc]
          obtain ⟨out, hout⟩ := ih (step + 1) _ (if u then ys ++ [e.id] else ys) hmset
          exact ⟨e :: out, by rw [hout]; rfl⟩
        · rw [if_neg hc]
          exact ih (step + 1) _ ys hmset

lemma muxRun_mono (u : Bool) (σ : Nat → Nat) :
    ∀ fuel fuel' step ss ys out, fuel ≤ fuel' →
      muxRun u σ fuel step ss ys = some out →
      muxRun u σ fuel' step ss ys = some out := by
  intro fuel
  induction fuel with
  | zero =>
    intro fuel' step ss ys out _ h
    cases ss with
    | nil =>
      rw [muxRun_zero] at h
      simp only [List.isEmpty_nil, if_true] at h
      cases fuel' with
      | zero => exact h
      | succ f => rw [← h]; rfl
    | cons s tl =>
      rw [muxRun_zero] at h
      simp at h
  | succ fuel ih =>
    intro fuel' step ss ys out hle h
    obtain ⟨fuel'', rfl⟩ : ∃ f, fuel' = f + 1 := ⟨fuel' - 1, by omega⟩
    cases ss with
    | nil => exact h
    | cons s tl =>
      rw [muxRun_succ_cons] at h ⊢
      cases hget : (s :: tl).getD (σ step % (s :: tl).length) [] with
      | nil =>
        simp only [hget] at h ⊢
        exact ih _ _ _ _ _ (by omega) h
      | cons e rest =>
        simp only [hget] at h ⊢
        by_cases hc : (!u || !(ys.contains e.id)) = true
        · rw [if_pos hc] at h ⊢
          obtain ⟨mid, hmid, rfl⟩ := Option.map_eq_some'.mp h
          rw [ih _ _ _ _ _ (by omega) hmid]
          rfl
        · rw [if_neg hc] at h ⊢
          exact ih _ _ _ _ _ (by omega) h

end MuxRunLemmas

section DedupLemmas

open Nostr

lemma dedupFirst_nil (seen : List String) : dedupFirst seen [] = [] := rfl

lemma dedupFirst_cons (seen : List String) (e : NostrEvent)
    (es : List NostrEvent) :
    dedupFirst seen (e :: es) =
      if seen.contains e.id = true then dedupFirst seen es
      else e :: dedupFirst (seen ++ [e.id]) es := rfl

lemma muxRun_false_perm (σ : Nat → Nat) :
    ∀ fuel step ss ys l, muxRun false σ fuel step ss ys = some l →
      l.Perm ss.flatten := by
  intro fuel
  induction fuel with
  | zero =>
    intro step ss ys l h
    cases ss with
    | nil =>
      rw [muxRun_zero] at h
      simp only [List.isEmpty_nil, if_true, Option.some_inj] at h
      subst h; simp
    | cons s tl => rw [muxRun_zero] at h; simp at h
  | succ fuel ih =>
    intro step ss ys l h
    cases ss with
    | nil =>
      simp only [muxRun, List.isEmpty_nil, if_true, Option.some_inj] at h
      subst h; simp
    | cons s tl =>
      rw [muxRun_succ_cons] at h
      have hilt : σ step % (s :: tl).length < (s :: tl).length :=
        Nat.mod_lt _ (by simp)
      cases hget : (s :: tl).getD (σ step % (s :: tl).length) [] with
      | nil =>
        simp only [hget] at h
        have := ih _ _ _ _ h
        rwa [flatten_eraseIdx_of_empty _ _ hilt hget] at this
      | cons e rest =>
        simp only [hget] at h
        rw [if_pos (by simp)] at h
        obtain ⟨mid, hmid, rfl⟩ := Option.map_eq_some'.mp h
        have hperm := ih _ _ _ _ hmid
        exact (hperm.cons e).trans (flatten_set_perm _ _ e rest hilt hget).symm

lemma muxRun_true_eq_dedup (σ : Nat → Nat) :
    ∀ fuel step ss seen ys l, muxRun false σ fuel step ss ys = some l →
      muxRun true σ fuel step ss seen = some (dedupFirst seen l) := by
  intro fuel
  induction fuel with
  | zero =>
    intro step ss seen ys l h
    cases ss with
    | nil =>
      rw [muxRun_zero] at h ⊢
      simp only [List.isEmpty_nil, if_true, Option.some_inj] at h ⊢
      subst h; rfl
    | cons s tl => rw [muxRun_zero] at h; simp at h
  | succ fuel ih =>
    intro step ss seen ys l h
    cases ss with
    | nil =>
      simp only [muxRun, List.isEmpty_nil, if_true, Option.some_inj] at h ⊢
      subst h; rfl
    | cons s tl =>
      rw [muxRun_succ_cons] at h ⊢
      cases hget : (s :: tl).getD (σ step % (s :: tl).length) [] with
      | nil =>
        simp only [hget] at h ⊢
        exact ih _ _ seen _ _ h
      | cons e rest =>
        simp only [hget] at h ⊢
        rw [if_pos (by simp)] at h
        obtain ⟨mid, hmid, rfl⟩ := Option.map_eq_some'.mp h
        cases hc : seen.contains e.id with
        | true =>
          rw [if_neg (by simp [hc])]
          rw [dedupFirst_cons, if_pos hc]
          exact ih _ _ seen _ _ hmid
        | false =>
          rw [if_pos (by simp [hc]), if_pos trivial]
          rw [ih _ _ (seen ++ [e.id]) _ _ hmid]
          rw [dedupFirst_cons, if_neg (by rw [hc]; simp)]
          rfl

lemma contains_false_not_mem {l : List String} {a : String}
    (h : l.contains a = false) : a ∉ l := by
  intro hm
  have h2 : l.contains a = true := List.elem_iff.mpr hm
  rw [h2] at h
  cases h

lemma dedupFirst_mem_id :
    ∀ (l : List NostrEvent) (seen : List String) (x : String),
      x ∈ (dedupFirst seen l).map (·.id) ↔
        x ∈ l.map (·.id) ∧ x ∉ seen := by
  intro l
  induction l with
  | nil => intro seen x; simp [dedupFirst_nil]
  | cons e es ih =>
    intro seen x
    cases hc : seen.contains e.id with
    | true =>
      have hmem : e.id ∈ seen := List.elem_iff.mp hc
      rw [dedupFirst_cons, if_pos hc, ih]
      simp only [List.map_cons, List.mem_cons]
      constructor
      · rintro ⟨hx, hns⟩
        exact ⟨Or.inr hx, hns⟩
      · rintro ⟨hx | hx, hns⟩
        · subst hx; exact absurd hmem hns
        · exact ⟨hx, hns⟩
    | false =>
      have hmem : e.id ∉ seen := contains_false_not_mem hc
      rw [dedupFirst_cons, if_neg (by rw [hc]; simp)]
      simp only [List.map_cons, List.mem_cons]
      rw [ih]
      constructor
      · rintro (rfl | ⟨hx, hns⟩)
        · exact ⟨Or.inl rfl, hmem⟩
        · refine ⟨Or.inr hx, ?_⟩
          intro habs
          exact hns (by simp [habs])
      · rintro ⟨hx | hx, hns⟩
        · exact Or.inl hx
        · by_cases hxe : x = e.id
          · exact Or.inl hxe
          · exact Or.inr ⟨hx, by simp [hns, hxe]⟩

lemma dedupFirst_nodup :
    ∀ (l : List NostrEvent) (seen : List String),
      ((dedupFirst seen l).map (·.id)).Nodup := by
  intro l
  induction l with
  | nil => intro seen; simp [dedupFirst_nil]
  | cons e es ih =>
    intro seen
    cases hc : seen.contains e.id with
    | true => rw [dedupFirst_cons, if_pos hc]; exact ih seen
    | false =>
      rw [dedupFirst_cons, if_neg (by rw [hc]; simp)]
      simp only [List.map_cons]
      refine List.nodup_cons.mpr ⟨?_, ih (seen ++ [e.id])⟩
      intro habs
      have := (dedupFirst_mem_id es (seen ++ [e.id]) e.id).mp habs
      exact this.2 (by simp)

lemma dedupFirst_find? :
    ∀ (l : List NostrEvent) (seen : List String) (x : String), x ∉ seen →
      (dedupFirst seen l).find? (fun e => e.id == x) =
        l.find? (fun e => e.id == x) := by
  intro l
  induction l with
  | nil => intro seen x _; rfl
  | cons e es ih =>
    intro seen x hx
    cases hc : seen.contains e.id with
    | true =>
      have hmem : e.id ∈ seen := List.elem_iff.mp hc
      have hne : (e.id == x) = false := by
        simp only [beq_eq_false_iff_ne, ne_eq]
        intro habs; subst habs; exact hx hmem
      rw [dedupFirst_cons, if_pos hc, List.find?_cons, hne]
      exact ih seen x hx
    | false =>
      rw [dedupFirst_cons, if_neg (by rw [hc]; simp)]
      rw [List.find?_cons, List.find?_cons]
      cases hbe : (e.id == x) with
      | true => rfl
      | false =>
        apply ih
        intro habs
        simp only [List.mem_append, List.mem_singleton] at habs
        rcases habs with habs | habs
        · exact hx habs
        · subst habs
          simp at hbe

end DedupLemmas

/-- A text-note event with identifier `i` from relay stream `p`, as used in
the spec's multiplexer test vectors. -/
def mkEv (i p : String) : Nostr.NostrEvent :=
  { id := i, pubkey := p, created_at := 0, kind := 1, tags := [], content := p,
    sig := "" }

/-- Source A of the spec's multiplexer example, producing identifiers 1,2,3. -/
def muxSrcA : List Nostr.NostrEvent := [mkEv "1" "A", mkEv "2" "A", mkEv "3" "A"]

/-- Source B of the spec's multiplexer example, producing identifiers 2,3,4. -/
def muxSrcB : List Nostr.NostrEvent := [mkEv "2" "B", mkEv "3" "B", mkEv "4" "B"]

/-- C2: for every finite set of source iterators and every arrival
interleaving `σ`, `Nostr.filter` with `unique = true` yields each event
identifier at most once (the yielded identifier list is `Nodup`), the
first-arriving event with a given identifier being the one yielded
(`find?` on the deduplicated output agrees with `find?` on the raw
arrival sequence, and exactly the identifiers that arrive are yielded);
with `unique = false` every item from every source is forwarded even when
identifiers repeat across sources (the arrival sequence is a permutation
of all the sources' items). In particular, for the spec's example sources
`A:[1,2,3]` and `B:[2,3,4]`, `unique = true` yields the identifiers
`{1,2,3,4}` exactly once each while `unique = false` yields all 6 items. -/
theorem C2_filter_dedup :
    (∀ (sources : List (List Nostr.NostrEvent)) (σ : Nat → Nat),
      ∃ out all : List Nostr.NostrEvent,
        Nostr.filterMux true sources σ = some out ∧
        Nostr.filterMux false sources σ = some all ∧
        all.Perm sources.flatten ∧
        (out.map (·.id)).Nodup ∧
        (∀ x : String, x ∈ out.map (·.id) ↔ x ∈ all.map (·.id)) ∧
        (∀ x : String, out.find? (fun e => e.id == x) =
          all.find? (fun e => e.id == x))) ∧
    (∀ σ : Nat → Nat,
      ∃ out all : List Nostr.NostrEvent,
        Nostr.filterMux true [muxSrcA, muxSrcB] σ = some out ∧
        Nostr.filterMux false [muxSrcA, muxSrcB] σ = some all ∧
        all.length = 6 ∧
        (out.map (·.id)).Nodup ∧
        (∀ x : String, x ∈ out.map (·.id) ↔ x ∈ ["1", "2", "3", "4"]) ∧
        (∀ x : String, out.find? (fun e => e.id == x) =
          all.find? (fun e => e.id == x))) := by
  constructor
  · intro sources σ
    obtain ⟨all, hall⟩ :=
      muxRun_total false σ (Nostr.muxMeasure sources) 0 sources [] (le_refl _)
    have hperm := muxRun_false_perm σ _ 0 _ [] all hall
    refine ⟨Nostr.dedupFirst [] all, all,
      muxRun_true_eq_dedup σ _ 0 _ [] [] all hall, hall, hperm, ?_, ?_, ?_⟩
    · exact dedupFirst_nodup all []
    · intro x
      rw [dedupFirst_mem_id all [] x]
      simp only [List.not_mem_nil, not_false_iff, and_true]
    · intro x
      exact dedupFirst_find? all [] x (List.not_mem_nil x)
  · intro σ
    obtain ⟨all, hall⟩ :=
      muxRun_total false σ (Nostr.muxMeasure [muxSrcA, muxSrcB]) 0
        [muxSrcA, muxSrcB] [] (le_refl _)
    have hperm := muxRun_false_perm σ _ 0 _ [] all hall
    have hflat : ([muxSrcA, muxSrcB] : List (List Nostr.NostrEvent)).flatten.map
        (·.id) = ["1", "2", "3", "2", "3", "4"] := rfl
    refine ⟨Nostr.dedupFirst [] all, all,
      muxRun_true_eq_dedup σ _ 0 _ [] [] all hall, hall, ?_, ?_, ?_, ?_⟩
    · rw [hperm.length_eq]; rfl
    · exact dedupFirst_nodup all []
    · intro x
      rw [dedupFirst_mem_id all [] x]
      have hmem : x ∈ all.map (·.id) ↔ x ∈ ["1", "2", "3", "2", "3", "4"] := by
        rw [← hflat]
        exact (hperm.map (·.id)).mem_iff
      rw [hmem]
      simp only [List.mem_cons, List.not_mem_nil, or_false]
      tauto
    · intro x
      exact dedupFirst_find? all [] x (List.not_mem_nil x)

/-- Witness for C2: both conjuncts instantiated at the spec's example
sources and the round-robin arrival schedule. -/
theorem C2_filter_dedup_witness :
    (∃ out all : List Nostr.NostrEvent,
      Nostr.filterMux true [muxSrcA, muxSrcB] (fun n => n) = some out ∧
      Nostr.filterMux false [muxSrcA, muxSrcB] (fun n => n) = some all ∧
      all.Perm ([muxSrcA, muxSrcB] : List (List Nostr.NostrEvent)).flatten ∧
      (out.map (·.id)).Nodup ∧
      (∀ x : String, x ∈ out.map (·.id) ↔ x ∈ all.map (·.id)) ∧
      (∀ x : String, out.find? (fun e => e.id == x) =
        all.find? (fun e => e.id == x))) ∧
    (∃ out all : List Nostr.NostrEvent,
      Nostr.filterMux true [muxSrcA, muxSrcB] (fun n => n) = some out ∧
      Nostr.filterMux false [muxSrcA, muxSrcB] (fun n => n) = some all ∧
      all.length = 6 ∧
      (out.map (·.id)).Nodup ∧
      (∀ x : String, x ∈ out.map (·.id) ↔ x ∈ ["1", "2", "3", "4"]) ∧
      (∀ x : String, out.find? (fun e => e.id == x) =
        all.find? (fun e => e.id == x))) :=
  ⟨C2_filter_dedup.1 [muxSrcA, muxSrcB] (fun n => n),
   C2_filter_dedup.2 (fun n => n)⟩

/-- C5: for every finite set of sources and every arrival schedule, the
multiplexer of `Nostr.filter` terminates — `muxMeasure` rounds of the loop
suffice to empty the active set, and no further items are yielded with any
larger fuel; an empty active set ends the iteration at once; and in a full
run every item of every source is consumed exactly once (the dedup-off
output is a permutation of the sources' items), so an exhausted, removed
source is never polled again and each yield re-arms only its own source. -/
theorem C5_mux_termination (unique : Bool)
    (sources : List (List Nostr.NostrEvent)) (σ : Nat → Nat) :
    ∃ out : List Nostr.NostrEvent,
      Nostr.filterMux unique sources σ = some out ∧
      (∀ fuel, Nostr.muxMeasure sources ≤ fuel →
        Nostr.muxRun unique σ fuel 0 sources [] = some out) ∧
      (∀ fuel step yielded,
        Nostr.muxRun unique σ fuel step [] yielded = some []) ∧
      ∃ arrivals : List Nostr.NostrEvent,
        Nostr.filterMux false sources σ = some arrivals ∧
          arrivals.Perm sources.flatten := by
  obtain ⟨out, hout⟩ :=
    muxRun_total unique σ (Nostr.muxMeasure sources) 0 sources [] (le_refl _)
  obtain ⟨arr, harr⟩ :=
    muxRun_total false σ (Nostr.muxMeasure sources) 0 sources [] (le_refl _)
  refine ⟨out, hout, ?_, ?_, arr, harr, muxRun_false_perm σ _ 0 _ [] arr harr⟩
  · intro fuel hfuel
    exact muxRun_mono unique σ _ fuel 0 sources [] out hfuel hout
  · intro fuel step yielded
    cases fuel with
    | zero => rfl
    | succ f => rfl

/-- Witness for C5 at the concrete sources of the multiplexer example and
the round-robin schedule. -/
theorem C5_mux_termination_witness :
    ∃ out : List Nostr.NostrEvent,
      Nostr.filterMux true [muxSrcA, muxSrcB] (fun n => n) = some out ∧
      (∀ fuel, Nostr.muxMeasure [muxSrcA, muxSrcB] ≤ fuel →
        Nostr.muxRun true (fun n => n) fuel 0 [muxSrcA, muxSrcB] [] =
          some out) ∧
      (∀ fuel step yielded,
        Nostr.muxRun true (fun n => n) fuel step [] yielded = some []) ∧
      ∃ arrivals : List Nostr.NostrEvent,
        Nostr.filterMux false [muxSrcA, muxSrcB] (fun n => n) =
          some arrivals ∧
          arrivals.Perm ([muxSrcA, muxSrcB] : List (List Nostr.NostrEvent)).flatten :=
  C5_mux_termination true [muxSrcA, muxSrcB] (fun n => n)

namespace Nostr

/-- The `NostrPost` interface of `src/unnamed/part_001` (lines 45-53);
optional fields are `Option` (absent = JS `undefined`). -/
structure NostrPost where
  id : String
  content : String
  author : String
  createdAt : Nat
  reference : Option String
  rootReference : Option String
  mentionTo : Option String
deriving DecidableEq, Repr

/-- JS truthiness of an optional string argument: `undefined` and the empty
string are falsy. -/
def jsTruthyStr : Option String → Bool
  | none => false
  | some s => !(s == "")

/-- `tag.length > 0 && tag[0] === 'e' && tag[tag.length - 1] === marker`,
the tag predicate used by `Nostr.eventToPost` (lines 298 and 302). -/
def isETagWith (marker : String) (tag : List String) : Bool :=
  decide (tag.length > 0) && (tag.getD 0 "" == "e") &&
    (tag.getD (tag.length - 1) "" == marker)

/-- `tag.length > 0 && tag[0] === 'p'` (line 306). -/
def isPTag (tag : List String) : Bool :=
  decide (tag.length > 0) && (tag.getD 0 "" == "p")

/-- `Nostr.eventToPost` (lines 291-311): project an event to a post, taking
the first `e`-tag ending in `root`, the first ending in `reply`, and the
first `p`-tag; `tag[1]` of a found tag may itself be absent. -/
def eventToPost (event : NostrEvent) : NostrPost :=
  { id := event.id
    author := event.pubkey
    content := event.content
    createdAt := event.created_at
    rootReference := (event.tags.find? (isETagWith "root")).bind (fun t => t[1]?)
    reference := (event.tags.find? (isETagWith "reply")).bind (fun t => t[1]?)
    mentionTo := (event.tags.find? isPTag).bind (fun t => t[1]?) }

/-- One character of `JSON.stringify` string escaping (the protocol's JSON
rule): quote and backslash escaped, control characters as `\b \t \n \f \r`
or `\u00XX`, everything else verbatim. -/
def jsonEscapeChar (c : Char) : List Char :=
  if c = '"' then ['\\', '"']
  else if c = '\\' then ['\\', '\\']
  else if c.toNat = 8 then ['\\', 'b']
  else if c.toNat = 9 then ['\\', 't']
  else if c.toNat = 10 then ['\\', 'n']
  else if c.toNat = 12 then ['\\', 'f']
  else if c.toNat = 13 then ['\\', 'r']
  else if c.toNat < 32 then
    ['\\', 'u', '0', '0', hexDigitChar (c.toNat / 16), hexDigitChar (c.toNat % 16)]
  else [c]

/-- `JSON.stringify` of a string. -/
def jsonStr (s : String) : String :=
  "\"" ++ String.mk (s.data.flatMap jsonEscapeChar) ++ "\""

/-- `JSON.stringify` of an array of strings. -/
def jsonStrArr (xs : List String) : String :=
  "[" ++ String.intercalate "," (xs.map jsonStr) ++ "]"

/-- `JSON.stringify` of the tag list. -/
def jsonTagsArr (tags : List (List String)) : String :=
  "[" ++ String.intercalate "," (tags.map jsonStrArr) ++ "]"

/-- `Nostr.eventCommitment` (lines 379-382):
`JSON.stringify([0, pubkey, created_at, kind, tags, content])`. -/
def eventCommitment (event : NostrEvent) : String :=
  "[0," ++ jsonStr event.pubkey ++ "," ++ toString event.created_at ++ "," ++
    toString event.kind ++ "," ++ jsonTagsArr event.tags ++ "," ++
    jsonStr event.content ++ "]"

/-- UTF-8 bytes of one character (the platform `TextEncoder` used by
`Nostr.utf8Encode`, lines 384-387). -/
def utf8Bytes (c : Char) : List Nat :=
  let n := c.toNat
  if n < 0x80 then [n]
  else if n < 0x800 then [0xC0 + n / 64, 0x80 + n % 64]
  else if n < 0x10000 then
    [0xE0 + n / 4096, 0x80 + (n / 64) % 64, 0x80 + n % 64]
  else
    [0xF0 + n / 262144, 0x80 + (n / 4096) % 64, 0x80 + (n / 64) % 64,
      0x80 + n % 64]

/-- `Nostr.utf8Encode`: encode a string to its UTF-8 bytes. -/
def utf8Encode (txt : String) : List Nat := txt.data.flatMap utf8Bytes

/-- The cryptographic context of a posting client.  `sha256` and
`schnorrSign` stand for `utils.sha256` and `schnorr.sign` of `secp.ts`,
which is not under `src/`; modelled from the spec as opaque parameters
(`sha256` a 256-bit hash, `schnorrSign(idHex, privateKeyHex)` the scheme's
deterministic signature bytes). -/
structure SignCtx where
  sha256 : List Nat → List Nat
  schnorrSign : String → String → List Nat
  publicKey : String
  privateKey : String

/-- `Nostr.calculateId` (lines 406-411):
`hexEncode(sha256(utf8Encode(eventCommitment(event))))`. -/
def calculateId (sha256 : List Nat → List Nat) (event : NostrEvent) : String :=
  hexEncode (sha256 (utf8Encode (eventCommitment event)))

/-- ASCII bytes decoded back to a string (`new TextDecoder().decode` applied
to the hex-table output, which is pure ASCII). -/
def asciiString (bytes : List Nat) : String := String.mk (bytes.map Char.ofNat)

/-- `Nostr.sendPost` (lines 417-456) at wall-clock second `createdAt`:
build the event, add an `['e', rootReference, '', 'root']` tag when
`rootReference` is truthy and an `['e', reference, '', 'reply']` tag when
`reference` is truthy, compute the id, sign it, publish to every relay
(publication has no effect on the produced value; per-relay errors are
caught and logged), and return `eventToPost(event)`. -/
def sendPost (ctx : SignCtx) (createdAt : Nat) (content : String)
    (rootReference reference : Option String) : NostrEvent × NostrPost :=
  let tagsRoot : List (List String) :=
    if jsTruthyStr rootReference then
      [["e", rootReference.getD "", "", "root"]]
    else []
  let tags : List (List String) :=
    tagsRoot ++
      (if jsTruthyStr reference then
        [["e", reference.getD "", "", "reply"]]
      else [])
  let ev1 : NostrEvent :=
    { content := content, created_at := createdAt, id := "", kind := 1,
      pubkey := ctx.publicKey, sig := "", tags := tags }
  let evId := calculateId ctx.sha256 ev1
  let sigStr := asciiString (HexEnc.encode (ctx.schnorrSign evId ctx.privateKey))
  let ev : NostrEvent := { ev1 with id := evId, sig := sigStr }
  (ev, eventToPost ev)

/-- The `i > 0` arm of the `sendThreadPost` loop (lines 477-482):
each later item is sent with `sendPost(text, "", lastPost.id)` — an empty
(falsy) root reference and a reply reference to the previous post.  `k`
indexes the wall clock `times`. -/
def threadFollowUps (ctx : SignCtx) (times : Nat → Nat) :
    String → Nat → List String → List NostrEvent
  | _, _, [] => []
  | lastId, k, t :: more =>
    let (ev, post) := sendPost ctx (times k) t (some "") (some lastId)
    ev :: threadFollowUps ctx times post.id (k + 1) more

/-- `Nostr.sendThreadPost` (lines 466-484).  Returns the publication trace
(the events published, in order) and — second component — the caller's
array after the call: `posts.shift()` removes the first element in place on
the success path, while the short-input throw happens before any mutation.
The first follow-up is sent with `sendPost(text, firstPost.id)` (root
reference only, no reply argument). -/
def sendThreadPost (ctx : SignCtx) (times : Nat → Nat) (posts : List String) :
    Except String (List NostrEvent) × List String :=
  if posts.length < 2 then
    (Except.error "At least 2 posts required", posts)
  else
    match posts with
    | [] => (Except.error "At least 2 posts required", [])
    | p0 :: rest =>
      let (ev0, firstPost) := sendPost ctx (times 0) p0 none none
      match rest with
      | [] => (Except.ok [ev0], [])
      | p1 :: more =>
        let (ev1, post1) := sendPost ctx (times 1) p1 (some firstPost.id) none
        (Except.ok (ev0 :: ev1 :: threadFollowUps ctx times post1.id 2 more),
          rest)

end Nostr

section ThreadLemmas

open Nostr

lemma strAppendJs_data_len (s : String) (c : Option Char) :
    s.data.length < (strAppendJs s c).data.length := by
  cases c with
  | some ch => simp [strAppendJs, String.push]
  | none => simp [strAppendJs]

lemma hexEncodeFoldStep_len (s : String) (b : Nat) :
    s.data.length <
      (strAppendJs (strAppendJs s (hexChar (b >>> 4))) (hexChar (b &&& 0xF))).data.length :=
  lt_trans (strAppendJs_data_len s _) (strAppendJs_data_len _ _)

lemma hexEncode_foldl_len (bs : List Nat) :
    ∀ s : String, s.data.length ≤
      (bs.foldl (fun str c =>
        strAppendJs (strAppendJs str (hexChar (c >>> 4))) (hexChar (c &&& 0xF))) s).data.length := by
  induction bs with
  | nil => intro s; exact le_refl _
  | cons b rest ih =>
    intro s
    exact le_trans (le_of_lt (hexEncodeFoldStep_len s b)) (ih _)

lemma hexEncode_ne_empty (bs : List Nat) (h : bs ≠ []) :
    hexEncode bs ≠ "" := by
  cases bs with
  | nil => exact absurd rfl h
  | cons b rest =>
    intro habs
    have hlen : (hexEncode (b :: rest)).data.length = 0 := by rw [habs]; rfl
    have : 0 < (hexEncode (b :: rest)).data.length := by
      unfold hexEncode
      rw [List.foldl_cons]
      calc 0 < (strAppendJs (strAppendJs "" (hexChar (b >>> 4)))
            (hexChar (b &&& 0xF))).data.length := hexEncodeFoldStep_len "" b
        _ ≤ _ := hexEncode_foldl_len rest _
    omega

lemma calculateId_ne_empty (sha256 : List Nat → List Nat)
    (hsha : ∀ bs, (sha256 bs).length = 32) (ev : NostrEvent) :
    calculateId sha256 ev ≠ "" := by
  apply hexEncode_ne_empty
  intro habs
  have := hsha (utf8Encode (eventCommitment ev))
  rw [habs] at this
  simp at this

lemma jsTruthyStr_some_of_ne {s : String} (h : s ≠ "") :
    jsTruthyStr (some s) = true := by
  simp [jsTruthyStr, h]

lemma sendPost_fst_tags (ctx : SignCtx) (t : Nat) (cont : String)
    (r rf : Option String) :
    (sendPost ctx t cont r rf).1.tags =
      (if jsTruthyStr r then [["e", r.getD "", "", "root"]] else []) ++
        (if jsTruthyStr rf then [["e", rf.getD "", "", "reply"]] else []) := rfl

lemma sendPost_fst_content (ctx : SignCtx) (t : Nat) (cont : String)
    (r rf : Option String) : (sendPost ctx t cont r rf).1.content = cont := rfl

end ThreadLemmas

/-- C1 (amended): `sendThreadPost` fails with the thread-too-short error on
inputs of fewer than 2 items and publishes nothing; on `[a, b, c]` it
publishes the first item as a root post (no tags), but the first follow-up
carries only an `'e'`-tag marked `'root'` referencing the root post's id —
no `'reply'`-tag — and the third event carries only an `'e'`-tag marked
`'reply'` referencing the second post's id. -/
theorem C1_thread_tags (sha256 : List Nat → List Nat)
    (sign : String → String → List Nat) (pk sk : String) (times : Nat → Nat)
    (a b c : String) (hsha : ∀ bs, (sha256 bs).length = 32) :
    (Nostr.sendThreadPost ⟨sha256, sign, pk, sk⟩ times []).1 =
      Except.error "At least 2 posts required" ∧
    (Nostr.sendThreadPost ⟨sha256, sign, pk, sk⟩ times [a]).1 =
      Except.error "At least 2 posts required" ∧
    ∃ e0 e1 e2 : Nostr.NostrEvent,
      (Nostr.sendThreadPost ⟨sha256, sign, pk, sk⟩ times [a, b, c]).1 =
        Except.ok [e0, e1, e2] ∧
      e0.content = a ∧ e0.tags = [] ∧
      e1.content = b ∧ e1.tags = [["e", e0.id, "", "root"]] ∧
      e2.content = c ∧ e2.tags = [["e", e1.id, "", "reply"]] := by
  refine ⟨rfl, rfl, ?_⟩
  have hne := calculateId_ne_empty sha256 hsha
  refine ⟨(Nostr.sendPost ⟨sha256, sign, pk, sk⟩ (times 0) a none none).1,
    (Nostr.sendPost ⟨sha256, sign, pk, sk⟩ (times 1) b
      (some (Nostr.sendPost ⟨sha256, sign, pk, sk⟩ (times 0) a none none).1.id)
      none).1,
    (Nostr.sendPost ⟨sha256, sign, pk, sk⟩ (times 2) c (some "")
      (some (Nostr.sendPost ⟨sha256, sign, pk, sk⟩ (times 1) b
        (some (Nostr.sendPost ⟨sha256, sign, pk, sk⟩ (times 0) a none
          none).1.id) none).1.id)).1,
    rfl, rfl, rfl, rfl, ?_, rfl, ?_⟩
  · rw [sendPost_fst_tags]
    have h1 : Nostr.jsTruthyStr
        (some (Nostr.sendPost ⟨sha256, sign, pk, sk⟩ (times 0) a none
          none).1.id) = true :=
      jsTruthyStr_some_of_ne (hne _)
    rw [h1]
    rfl
  · rw [sendPost_fst_tags]
    have h2 : Nostr.jsTruthyStr
        (some (Nostr.sendPost ⟨sha256, sign, pk, sk⟩ (times 1) b
          (some (Nostr.sendPost ⟨sha256, sign, pk, sk⟩ (times 0) a none
            none).1.id) none).1.id) = true :=
      jsTruthyStr_some_of_ne (hne _)
    rw [h2]
    rfl

/-- Witness for C1 at a concrete context (constant hash, empty signature). -/
theorem C1_thread_tags_witness :
    (∀ bs : List Nat, ((fun _ => List.replicate 32 0) bs : List Nat).length = 32) ∧
    ((Nostr.sendThreadPost ⟨fun _ => List.replicate 32 0, fun _ _ => [], "pk", "sk"⟩
        (fun k => k) []).1 = Except.error "At least 2 posts required" ∧
      (Nostr.sendThreadPost ⟨fun _ => List.replicate 32 0, fun _ _ => [], "pk", "sk"⟩
        (fun k => k) ["a"]).1 = Except.error "At least 2 posts required" ∧
      ∃ e0 e1 e2 : Nostr.NostrEvent,
        (Nostr.sendThreadPost ⟨fun _ => List.replicate 32 0, fun _ _ => [], "pk", "sk"⟩
          (fun k => k) ["a", "b", "c"]).1 = Except.ok [e0, e1, e2] ∧
        e0.content = "a" ∧ e0.tags = [] ∧
        e1.content = "b" ∧ e1.tags = [["e", e0.id, "", "root"]] ∧
        e2.content = "c" ∧ e2.tags = [["e", e1.id, "", "reply"]]) :=
  ⟨fun bs => by simp,
    C1_thread_tags (fun _ => List.replicate 32 0) (fun _ _ => []) "pk" "sk"
      (fun k => k) "a" "b" "c" (fun bs => by simp)⟩

/-- Counterexample to C1 as stated: in the successful run on
`["a", "b", "c"]` (with a concrete hash and signer) the per-event presence
of an `'e'`-tag marked `'reply'` is `[false, false, true]` — the second
published event carries no reply-tag, contradicting "the second and third
published events each carry a reply-tag". -/
theorem C1_thread_tags_counterexample :
    ((Nostr.sendThreadPost
        ⟨fun _ => List.replicate 32 0, fun _ _ => [], "pk", "sk"⟩
        (fun k => k) ["a", "b", "c"]).1.map
      (fun evs => evs.map
        (fun e => (e.tags.find? (Nostr.isETagWith "reply")).isSome))).toOption =
      some [false, false, true] := by decide

/-- C10: `sendThreadPost` mutates its argument: on the success path
(`n ≥ 2` items) the caller's array afterwards is the tail of the input
(length `n - 1`, the first element removed in place by `posts.shift()`);
on the short-input failure path the array is unchanged. -/
theorem C10_thread_mutation (sha256 : List Nat → List Nat)
    (sign : String → String → List Nat) (pk sk : String) (times : Nat → Nat)
    (posts : List String) :
    (2 ≤ posts.length →
      (∃ evs, (Nostr.sendThreadPost ⟨sha256, sign, pk, sk⟩ times posts).1 =
        Except.ok evs) ∧
      (Nostr.sendThreadPost ⟨sha256, sign, pk, sk⟩ times posts).2 =
        posts.tail ∧
      posts.tail.length = posts.length - 1) ∧
    (posts.length < 2 →
      Nostr.sendThreadPost ⟨sha256, sign, pk, sk⟩ times posts =
        (Except.error "At least 2 posts required", posts)) := by
  constructor
  · intro h2
    cases posts with
    | nil => simp at h2
    | cons p0 rest =>
      cases rest with
      | nil => simp at h2
      | cons p1 more =>
        refine ⟨⟨(Nostr.sendPost ⟨sha256, sign, pk, sk⟩ (times 0) p0 none
              none).1 ::
            (Nostr.sendPost ⟨sha256, sign, pk, sk⟩ (times 1) p1
              (some (Nostr.sendPost ⟨sha256, sign, pk, sk⟩ (times 0) p0 none
                none).2.id) none).1 ::
            Nostr.threadFollowUps ⟨sha256, sign, pk, sk⟩ times
              (Nostr.sendPost ⟨sha256, sign, pk, sk⟩ (times 1) p1
                (some (Nostr.sendPost ⟨sha256, sign, pk, sk⟩ (times 0) p0 none
                  none).2.id) none).2.id
              2 more, ?_⟩, ?_, by simp⟩
        · unfold Nostr.sendThreadPost
          rw [if_neg (by simp only [List.length_cons]; omega)]
        · unfold Nostr.sendThreadPost
          rw [if_neg (by simp only [List.length_cons]; omega)]
          rfl
  · intro hlt
    unfold Nostr.sendThreadPost
    rw [if_pos hlt]

/-- Witness for C10 at a concrete context and the input `["x", "y"]`. -/
theorem C10_thread_mutation_witness :
    ((2 ≤ (["x", "y"] : List String).length →
      (∃ evs, (Nostr.sendThreadPost
          ⟨fun _ => List.replicate 32 0, fun _ _ => [], "pk", "sk"⟩
          (fun k => k) ["x", "y"]).1 = Except.ok evs) ∧
      (Nostr.sendThreadPost
          ⟨fun _ => List.replicate 32 0, fun _ _ => [], "pk", "sk"⟩
          (fun k => k) ["x", "y"]).2 = (["x", "y"] : List String).tail ∧
      (["x", "y"] : List String).tail.length =
        (["x", "y"] : List String).length - 1) ∧
    ((["x", "y"] : List String).length < 2 →
      Nostr.sendThreadPost
          ⟨fun _ => List.replicate 32 0, fun _ _ => [], "pk", "sk"⟩
          (fun k => k) ["x", "y"] =
        (Except.error "At least 2 posts required", ["x", "y"]))) ∧
    (2 ≤ (["x", "y"] : List String).length) :=
  ⟨C10_thread_mutation (fun _ => List.replicate 32 0) (fun _ _ => []) "pk" "sk"
      (fun k => k) ["x", "y"], by decide⟩

namespace Nostr

/-- Minimal JSON value universe for the payloads `JSON.parse` returns. -/
inductive Json where
  | null
  | bool (b : Bool)
  | num (n : Int)
  | str (s : String)
  | arr (xs : List Json)
  | obj (fields : List (String × Json))

/-- JS property access `j[key]` on a parsed value: a present object field,
`undefined` (`none`) otherwise. -/
def Json.getProp (j : Json) (key : String) : Option Json :=
  match j with
  | .obj fs => (fs.find? (fun kv => kv.1 == key)).map (fun kv => kv.2)
  | _ => none

/-- One entry of `profileInfo.following` / `profileInfo.follower`:
`{publicKey, name}`; `publicKey` may be `undefined` when the tag has no
second element. -/
structure FollowEntry where
  publicKey : Option String
  name : String
deriving DecidableEq, Repr

/-- One entry of `profileInfo.relays`: `{url, read, write}`; `read`/`write`
are whatever the parsed payload holds (possibly absent). -/
structure RelayPref where
  url : String
  read : Option Json
  write : Option Json

/-- The `ProfileInfo` interface (lines 36-43); every field starts absent. -/
structure ProfileInfo where
  name : Option Json := none
  picture : Option Json := none
  about : Option Json := none
  relays : Option (List RelayPref) := none
  following : Option (List FollowEntry) := none
  follower : Option (List FollowEntry) := none

/-- `Nostr.isValidEvent` (lines 140-142):
`schnorr.verify(event.sig, event.id, event.pubkey)`.  `schnorrVerify` stands
for `schnorr.verify` of `secp.ts`, which is not under `src/` (spec-modelled
as an opaque boolean verifier). -/
def isValidEvent (schnorrVerify : String → String → String → Bool)
    (event : NostrEvent) : Bool :=
  schnorrVerify event.sig event.id event.pubkey

/-- `Nostr.getProfileEvents` (lines 144-153): for each relay take the
response batch (`relay.subscribePromise` is not under `src/`; the batches
are parameters) and push its first event when the batch is non-empty and
the event passes `isValidEvent`. -/
def getProfileEvents (schnorrVerify : String → String → String → Bool) :
    List (List NostrEvent) → List NostrEvent
  | [] => []
  | [] :: rest => getProfileEvents schnorrVerify rest
  | (d0 :: _) :: rest =>
    if isValidEvent schnorrVerify d0 then
      d0 :: getProfileEvents schnorrVerify rest
    else getProfileEvents schnorrVerify rest

/-- `filter(...).collect()` (lines 173-179) run to completion: the merged
iteration, which always terminates within `muxMeasure` rounds
(`muxRun_total`), so the default is never returned. -/
def collectModel (sources : List (List NostrEvent)) (σ : Nat → Nat) :
    List NostrEvent :=
  (filterMux true sources σ).getD []

/-- `Nostr.globalFeed` / `Nostr.getPosts` result assembly (lines 313-346):
collect the filtered events and project each to a post.  No signature
verification happens on this path. -/
def globalFeedModel (sources : List (List NostrEvent)) (σ : Nat → Nat) :
    List NostrPost :=
  (collectModel sources σ).map eventToPost

/-- The latest-event selection loop of `Nostr.getFollowingInfo`
(lines 368-376): keep the first event whose `created_at` strictly exceeds
the running maximum (initially 0); events with `created_at = 0` are never
selected. -/
def pickLatest (events : List NostrEvent) : Option NostrEvent :=
  (events.foldl (fun (acc : Nat × Option NostrEvent) ev =>
    if acc.1 < ev.created_at then (ev.created_at, some ev) else acc)
    (0, none)).2

/-- `Nostr.getFollowingInfo` (lines 362-377): collect the contact-list
events and pick the latest. -/
def getFollowingInfo (contactSources : List (List NostrEvent))
    (σ : Nat → Nat) : Option NostrEvent :=
  pickLatest (collectModel contactSources σ)

/-- `Nostr.getFollowerInfo` (lines 348-359): collect the reverse
contact-list events and return their authors. -/
def getFollowerInfo (followerSources : List (List NostrEvent))
    (σ : Nat → Nat) : List String :=
  (collectModel followerSources σ).map (fun ev => ev.pubkey)

/-- The metadata loop of `Nostr.getProfile` (lines 247-255):
`if (event.created_at > createdAt) { const data = JSON.parse(event.content);
profileInfo.name = data.name; ... }`.  `JSON.parse` throws on malformed
input (`parseJson` returns `none`), which aborts the whole query — there is
no try/catch anywhere on this path. -/
def metaFold (parseJson : String → Option Json) :
    List NostrEvent → Nat → ProfileInfo → Except String ProfileInfo
  | [], _, pi => Except.ok pi
  | ev :: rest, createdAt, pi =>
    if createdAt < ev.created_at then
      match parseJson ev.content with
      | none => Except.error "SyntaxError"
      | some data =>
        metaFold parseJson rest ev.created_at
          { pi with
              name := data.getProp "name"
              about := data.getProp "about"
              picture := data.getProp "picture" }
    else metaFold parseJson rest createdAt pi

/-- The relay-preference extraction of `Nostr.getProfile` (lines 258-266):
`for (const key in relayData) push({url: key, read: relayData[key].read,
write: relayData[key].write})`.  `for..in` over a non-object iterates no
keys (the string-index corner is not exercised by the protocol payloads). -/
def relayPrefsOf (relayData : Json) : List RelayPref :=
  match relayData with
  | .obj fs => fs.map (fun kv =>
      { url := kv.1, read := kv.2.getProp "read",
        write := kv.2.getProp "write" })
  | _ => []

/-- `Nostr.getProfile` (lines 238-289).  The query key only shapes the
filters sent to the relays, whose responses are the parameters here, so it
does not appear.  `parseJson` stands for the platform `JSON.parse`
(`none` = throws). -/
def getProfile (parseJson : String → Option Json)
    (schnorrVerify : String → String → String → Bool)
    (metaBatches : List (List NostrEvent))
    (contactSources : List (List NostrEvent)) (σ1 : Nat → Nat)
    (followerSources : List (List NostrEvent)) (σ2 : Nat → Nat) :
    Except String ProfileInfo := do
  let events := getProfileEvents schnorrVerify metaBatches
  let pi ← metaFold parseJson events 0 {}
  let pi ← match getFollowingInfo contactSources σ1 with
    | none => pure pi
    | some followingInfo =>
      match parseJson followingInfo.content with
      | none => Except.error "SyntaxError"
      | some relayData =>
        pure { pi with
          relays := some (relayPrefsOf relayData)
          following := some ((followingInfo.tags.filter isPTag).map
            (fun tag => { name := "", publicKey := tag[1]? })) }
  let followerInfo := getFollowerInfo followerSources σ2
  pure { pi with
    follower := some (followerInfo.map
      (fun fpk => { name := "", publicKey := some fpk })) }

/-- `Nostr.getMyProfile` (lines 218-220): delegates to `getProfile` with the
stored public key. -/
def getMyProfile (parseJson : String → Option Json)
    (schnorrVerify : String → String → String → Bool)
    (metaBatches : List (List NostrEvent))
    (contactSources : List (List NostrEvent)) (σ1 : Nat → Nat)
    (followerSources : List (List NostrEvent)) (σ2 : Nat → Nat) :
    Except String ProfileInfo :=
  getProfile parseJson schnorrVerify metaBatches contactSources σ1
    followerSources σ2

end Nostr

section ProfileLemmas

open Nostr

lemma getProfileEvents_valid (sv : String → String → String → Bool) :
    ∀ relayBatches : List (List NostrEvent),
      ∀ e ∈ getProfileEvents sv relayBatches, isValidEvent sv e = true := by
  intro relayBatches
  induction relayBatches with
  | nil => intro e he; simp [getProfileEvents] at he
  | cons batch rest ih =>
    intro e he
    cases batch with
    | nil => exact ih e he
    | cons d0 ds =>
      by_cases hv : isValidEvent sv d0 = true
      · rw [getProfileEvents, if_pos hv] at he
        rcases List.mem_cons.mp he with rfl | hmem
        · exact hv
        · exact ih e hmem
      · rw [getProfileEvents, if_neg hv] at he
        exact ih e he

end ProfileLemmas

/-- C3 (amended): a returned metadata event whose content fails to parse as
JSON makes the profile query fail with the propagated parse error —
`getProfile` (and so `getMyProfile`/`getOtherProfile`, which merely
delegate) rejects; the fields are not simply left absent.  `JSON.parse` is
the platform parser, modelled as `parseJson` with `none` = throws. -/
theorem C3_profile_parse_error (parseJson : String → Option Nostr.Json)
    (sv : String → String → String → Bool)
    (metaBatches contactSources followerSources : List (List Nostr.NostrEvent))
    (σ1 σ2 : Nat → Nat) (ev : Nostr.NostrEvent)
    (hev : Nostr.getProfileEvents sv metaBatches = [ev])
    (hca : 0 < ev.created_at)
    (hparse : parseJson ev.content = none) :
    Nostr.getProfile parseJson sv metaBatches contactSources σ1
      followerSources σ2 = Except.error "SyntaxError" := by
  have hm : Nostr.metaFold parseJson [ev] 0 {} = Except.error "SyntaxError" := by
    unfold Nostr.metaFold
    rw [if_pos hca, hparse]
  unfold Nostr.getProfile
  simp only [hev]
  rw [hm]
  rfl

/-- The metadata event used in the malformed-content run: content is the
empty string, on which `JSON.parse` throws. -/
def evBadMeta : Nostr.NostrEvent :=
  { id := "m", pubkey := "pk", created_at := 1, kind := 0, tags := [],
    content := "", sig := "s" }

/-- Witness for C3 at a concrete run: one relay returning one valid-signature
metadata event with unparseable content; the query errors. -/
theorem C3_profile_parse_error_witness :
    (Nostr.getProfileEvents (fun _ _ _ => true) [[evBadMeta]] = [evBadMeta] ∧
      0 < evBadMeta.created_at ∧
      (fun _ => (none : Option Nostr.Json)) evBadMeta.content = none) ∧
    Nostr.getProfile (fun _ => none) (fun _ _ _ => true) [[evBadMeta]] []
      (fun _ => 0) [] (fun _ => 0) = Except.error "SyntaxError" :=
  ⟨⟨rfl, by decide, rfl⟩,
    C3_profile_parse_error (fun _ => none) (fun _ _ _ => true) [[evBadMeta]]
      [] [] (fun _ => 0) (fun _ => 0) evBadMeta rfl (by decide) rfl⟩

/-- Counterexample to C3 as stated: the same concrete run fails (the result
carries no profile), contradicting "does not cause the query to fail with
an error". -/
theorem C3_profile_parse_counterexample :
    (Nostr.getProfile (fun _ => none) (fun _ _ _ => true) [[evBadMeta]] []
      (fun _ => 0) [] (fun _ => 0)).toOption = none := by
  rfl

/-- C4 (amended): events surfaced by `getProfileEvents` all pass schnorr
verification (`isValidEvent`), but the filter-based queries
(`collect`/`globalFeed`/`getPosts`/`getFollowerInfo`/`getFollowingInfo`)
perform no signature check: every received event's identifier reaches the
merged output regardless of any verifier. -/
theorem C4_verification (sv : String → String → String → Bool)
    (relayBatches sources : List (List Nostr.NostrEvent)) (σ : Nat → Nat) :
    (∀ e ∈ Nostr.getProfileEvents sv relayBatches,
      Nostr.isValidEvent sv e = true) ∧
    (∀ out, Nostr.filterMux true sources σ = some out →
      ∀ e ∈ sources.flatten, e.id ∈ out.map (·.id)) := by
  refine ⟨getProfileEvents_valid sv relayBatches, ?_⟩
  intro out hout e he
  obtain ⟨arr, harr⟩ :=
    muxRun_total false σ (Nostr.muxMeasure sources) 0 sources [] (le_refl _)
  have hdedup := muxRun_true_eq_dedup σ _ 0 sources [] [] arr harr
  have hout2 : out = Nostr.dedupFirst [] arr := by
    have : some out = some (Nostr.dedupFirst [] arr) := by
      rw [← hout]; exact hdedup
    exact Option.some_inj.mp this
  have hperm := muxRun_false_perm σ _ 0 _ [] arr harr
  rw [hout2]
  rw [dedupFirst_mem_id arr [] e.id]
  refine ⟨?_, List.not_mem_nil e.id⟩
  have : e ∈ arr := hperm.symm.subset (by exact he)
  exact List.mem_map.mpr ⟨e, this, rfl⟩

/-- Witness for C4: the reject-everything verifier on a single relay batch,
and a single unverified event flowing through the merged filter. -/
theorem C4_verification_witness :
    ((∀ e ∈ Nostr.getProfileEvents (fun _ _ _ => false) [[mkEv "bad" "X"]],
      Nostr.isValidEvent (fun _ _ _ => false) e = true) ∧
    (∀ out, Nostr.filterMux true [[mkEv "bad" "X"]] (fun _ => 0) = some out →
      ∀ e ∈ ([[mkEv "bad" "X"]] : List (List Nostr.NostrEvent)).flatten,
        e.id ∈ out.map (·.id))) ∧
    Nostr.filterMux true [[mkEv "bad" "X"]] (fun _ => 0) =
      some [mkEv "bad" "X"] :=
  ⟨C4_verification (fun _ _ _ => false) [[mkEv "bad" "X"]] [[mkEv "bad" "X"]]
    (fun _ => 0), by decide⟩

/-- Counterexample to C4 as stated: an event rejected by the verifier (here
the verifier that rejects everything, as the real `schnorr.verify` does on
any forged signature) is still surfaced both by `collect` and as a
`globalFeed` post, and `getProfileEvents` is the only verifying path. -/
theorem C4_verification_counterexample :
    Nostr.isValidEvent (fun _ _ _ => false) (mkEv "bad" "X") = false ∧
    Nostr.filterMux true [[mkEv "bad" "X"]] (fun _ => 0) =
      some [mkEv "bad" "X"] ∧
    Nostr.globalFeedModel [[mkEv "bad" "X"]] (fun _ => 0) =
      [Nostr.eventToPost (mkEv "bad" "X")] ∧
    Nostr.getProfileEvents (fun _ _ _ => false) [[mkEv "bad" "X"]] = [] := by
  refine ⟨rfl, by decide, ?_, rfl⟩
  rfl

namespace Nostr

/-- Modelled from the spec: the bech32 library (`scure-base`, an external
dependency, not repository code) — the bech32 character set
`qpzry9x8gf2tvdw0s3jn54khce6mua7l` (note: it does not contain `'1'`). -/
def bech32Charset : List Char := "qpzry9x8gf2tvdw0s3jn54khce6mua7l".data

/-- Modelled from the spec: the bech32 checksum generator constants. -/
def bech32Gen : List Nat :=
  [0x3b6a57b2, 0x26508e6d, 0x1ea119fa, 0x3d4233dd, 0x2a1462b3]

/-- Modelled from the spec: one bech32 polymod step
(`chk = (pre & 0x1ffffff) << 5` xored with the generators selected by the
top five bits of `pre`). -/
def bech32Polymod (pre : Nat) : Nat :=
  let b := pre >>> 25
  (List.range 5).foldl
    (fun chk i => if (b >>> i) &&& 1 = 1 then chk ^^^ bech32Gen.getD i 0 else chk)
    ((pre &&& 0x1ffffff) <<< 5)

/-- Modelled from the spec: the six 5-bit checksum words for
`hrp ++ data` (checksum per the bech32 spec, constant 1). -/
def bechChecksum (hrp : String) (words : List Nat) : List Nat :=
  let cs := hrp.data.map Char.toNat
  let chk0 := cs.foldl (fun chk c => bech32Polymod chk ^^^ (c >>> 5)) 1
  let chk1 := bech32Polymod chk0
  let chk2 := cs.foldl (fun chk c => bech32Polymod chk ^^^ (c &&& 0x1f)) chk1
  let chk3 := words.foldl (fun chk v => bech32Polymod chk ^^^ v) chk2
  let chk4 := (List.range 6).foldl (fun chk _ => bech32Polymod chk) chk3
  let chk5 := chk4 ^^^ 1
  (List.range 6).map (fun i => (chk5 >>> ((5 - i) * 5)) &&& 0x1f)

/-- Modelled from the spec: `bech32.encode(hrp, words, limit)` — fails when
`hrp.length + 7 + words.length` exceeds the limit, otherwise produces
`hrp ++ '1' ++ data ++ checksum` in the bech32 character set. -/
def bech32Encode (hrp : String) (words : List Nat) (limit : Nat) :
    Except String String :=
  if limit < hrp.length + 7 + words.length then
    Except.error "Length exceeded"
  else
    Except.ok (hrp ++ "1" ++
      String.mk ((words ++ bechChecksum hrp words).map
        (fun w => bech32Charset.getD w 'q')))

/-- Index of the last occurrence of `c` (`String.lastIndexOf`, the bech32
separator search). -/
def lastIdxAux (c : Char) : List Char → Option Nat
  | [] => none
  | x :: xs =>
    match lastIdxAux c xs with
    | some j => some (j + 1)
    | none => if x = c then some 0 else none

/-- Index of the last `'1'` in a character list. -/
def lastIndexOf1 (l : List Char) : Option Nat := lastIdxAux '1' l

/-- Bech32 character-set index of a character (`CHARSET.indexOf(c)`). -/
def charsetIdx (c : Char) : Option Nat :=
  bech32Charset.findIdx? (fun x => x = c)

/-- Map every data character to its 5-bit value, failing on a character
outside the set. -/
def wordsOfChars : List Char → Option (List Nat)
  | [] => some []
  | c :: rest =>
    match charsetIdx c, wordsOfChars rest with
    | some w, some ws => some (w :: ws)
    | _, _ => none

/-- Modelled from the spec: `bech32.decode(str, limit)` — rejects strings
longer than `limit` (or shorter than 8), splits at the last `'1'`, maps the
data characters to 5-bit words, recomputes the checksum over the leading
words and compares it with the trailing six, returning the prefix and the
data words.  Inputs are taken already lowercase (the mixed-case rejection
path is not exercised by the claims). -/
def bech32Decode (str : String) (limit : Nat) :
    Except String (String × List Nat) :=
  if limit < str.length then Except.error "Wrong string length"
  else if str.length < 8 then Except.error "Wrong string length"
  else
    match lastIndexOf1 str.data with
    | none => Except.error "No separator character"
    | some 0 => Except.error "Missing prefix"
    | some sep =>
      let hrp := String.mk (str.data.take sep)
      let dataPart := str.data.drop (sep + 1)
      if dataPart.length < 6 then Except.error "Data too short"
      else
        match wordsOfChars dataPart with
        | none => Except.error "Unknown letter"
        | some words =>
          let dataWords := words.take (words.length - 6)
          let cksum := words.drop (words.length - 6)
          if cksum = bechChecksum hrp dataWords then
            Except.ok (hrp, dataWords)
          else Except.error "Invalid checksum"

/-- Big-endian bits of `v` in width `w` (little end written last). -/
def natToBits : Nat → Nat → List Bool
  | 0, _ => []
  | w + 1, v => natToBits w (v / 2) ++ [v % 2 == 1]

/-- Value of a big-endian bit string. -/
def bitsToNat (bits : List Bool) : Nat :=
  bits.foldl (fun acc b => 2 * acc + (if b then 1 else 0)) 0

/-- Cut a bit string into chunks of `n` (fuel-driven so it computes in the
kernel); with fuel at least the number of chunks this is plain chunking. -/
def chunkBitsAux (n : Nat) : Nat → List Bool → List (List Bool)
  | 0, _ => []
  | _ + 1, [] => []
  | fuel + 1, l => l.take n :: chunkBitsAux n fuel (l.drop n)

/-- Cut a bit string into chunks of `n`. -/
def chunkBits (n : Nat) (l : List Bool) : List (List Bool) :=
  chunkBitsAux n l.length l

/-- Modelled from the spec: `bech32.toWords` — regroup 8-bit bytes into
5-bit groups, zero-padding the final group. -/
def toWords (bytes : List Nat) : List Nat :=
  let bits := bytes.flatMap (natToBits 8)
  let padded := bits ++ List.replicate ((5 - bits.length % 5) % 5) false
  (chunkBits 5 padded).map bitsToNat

/-- Modelled from the spec: `bech32.fromWords` — regroup 5-bit words into
8-bit bytes, rejecting more than four leftover bits or non-zero padding. -/
def fromWords (words : List Nat) : Except String (List Nat) :=
  let bits := words.flatMap (natToBits 5)
  let main := bits.take (8 * (bits.length / 8))
  let rest := bits.drop (8 * (bits.length / 8))
  if 5 ≤ rest.length then Except.error "Excess padding"
  else if rest.any (fun b => b) then Except.error "Non-zero padding"
  else Except.ok ((chunkBits 8 main).map bitsToNat)

/-- Modelled from the spec: `utils.bytesToHex` of the scheme library
(`secp.ts` is not under `src/`) — lowercase two-character hex per byte. -/
def bytesToHex (bytes : List Nat) : String := String.mk (hexCharsOfBytes bytes)

/-- Value of one hex digit character (either case), `utils.hexToBytes`'s
per-character table. -/
def hexCharVal (c : Char) : Option Nat :=
  if 48 ≤ c.toNat ∧ c.toNat ≤ 57 then some (c.toNat - 48)
  else if 97 ≤ c.toNat ∧ c.toNat ≤ 102 then some (c.toNat - 97 + 10)
  else if 65 ≤ c.toNat ∧ c.toNat ≤ 70 then some (c.toNat - 65 + 10)
  else none

/-- Modelled from the spec: `utils.hexToBytes` — parse hex-digit pairs,
failing on an odd length or a non-hex character. -/
def hexPairs : List Char → Option (List Nat)
  | [] => some []
  | [_] => none
  | c1 :: c2 :: rest =>
    match hexCharVal c1, hexCharVal c2, hexPairs rest with
    | some hi, some lo, some bs => some ((hi * 16 + lo) :: bs)
    | _, _, _ => none

/-- `Bech32MaxSize` of `src/unnamed/part_001` (line 79). -/
def Bech32MaxSize : Nat := 5000

/-- `Nostr.getNip19FromKey` (lines 99-103): hex-decode the key, regroup to
5-bit words, bech32-encode with prefix `npub` and limit `Bech32MaxSize`. -/
def getNip19FromKey (key : String) : Except String String := do
  match hexPairs key.data with
  | none => Except.error "Invalid hex"
  | some data => bech32Encode "npub" (toWords data) Bech32MaxSize

/-- JS `String.split` at a single separator character: the list of
segments between occurrences of `c`. -/
def splitChar (c : Char) : List Char → List (List Char)
  | [] => [[]]
  | x :: xs =>
    if x = c then [] :: splitChar c xs
    else
      match splitChar c xs with
      | [] => [[x]]
      | seg :: rest => (x :: seg) :: rest

/-- `Nostr.getKeyFromNip19` (lines 92-97): split at `'1'`
(`key.split('1')` destructured to its first two segments; a missing second
segment is JS `undefined`, stringified by the template literal), re-join
with `'1'`, bech32-decode with limit `1500`, regroup the words to bytes and
hex-encode them. -/
def getKeyFromNip19 (key : String) : Except String String := do
  let rejoined :=
    match splitChar '1' key.data with
    | [] => "1undefined"
    | [p] => String.mk p ++ "1undefined"
    | p :: b :: _ => String.mk p ++ "1" ++ String.mk b
  let code ← bech32Decode rejoined 1500
  let data ← fromWords code.2
  pure (bytesToHex data)

end Nostr

section BitLemmas

open Nostr

lemma natToBits_length (w v : Nat) : (natToBits w v).length = w := by
  induction w generalizing v with
  | zero => rfl
  | succ w ih => simp [natToBits, ih]

lemma bitsToNat_append_singleton (l : List Bool) (b : Bool) :
    bitsToNat (l ++ [b]) = 2 * bitsToNat l + (if b then 1 else 0) := by
  unfold bitsToNat
  rw [List.foldl_append]
  rfl

lemma bitsToNat_natToBits (w v : Nat) :
    bitsToNat (natToBits w v) = v % 2 ^ w := by
  induction w generalizing v with
  | zero => simp [natToBits, bitsToNat, Nat.mod_one]
  | succ w ih =>
    rw [natToBits, bitsToNat_append_singleton, ih]
    have key : v % 2 ^ (w + 1) = v % 2 + 2 * (v / 2 % 2 ^ w) := by
      rw [pow_succ, Nat.mul_comm, Nat.mod_mul]
    rcases Nat.mod_two_eq_zero_or_one v with h | h
    · have hb : (v % 2 == 1) = false := by rw [h]; rfl
      rw [hb]
      simp only [if_false, Bool.false_eq_true]
      omega
    · have hb : (v % 2 == 1) = true := by rw [h]; rfl
      rw [hb]
      simp only [if_true]
      omega

lemma bitsToNat_lt (l : List Bool) : bitsToNat l < 2 ^ l.length := by
  induction l using List.reverseRecOn with
  | nil => simp [bitsToNat]
  | append_singleton l b ih =>
    rw [bitsToNat_append_singleton]
    rw [List.length_append, List.length_singleton, Nat.pow_succ]
    cases b <;> simp <;> omega

lemma natToBits_bitsToNat (l : List Bool) :
    natToBits l.length (bitsToNat l) = l := by
  induction l using List.reverseRecOn with
  | nil => rfl
  | append_singleton l b ih =>
    rw [List.length_append, List.length_singleton, bitsToNat_append_singleton]
    rw [natToBits]
    have hdiv : (2 * bitsToNat l + (if b then 1 else 0)) / 2 = bitsToNat l := by
      cases b <;> simp <;> omega
    have hmod : ((2 * bitsToNat l + (if b then 1 else 0)) % 2 == 1) = b := by
      cases b
      · simp [Nat.mul_add_mod]
      · simp [Nat.mul_add_mod]
    rw [hdiv, hmod, ih]

lemma flatMap_natToBits_length (w : Nat) (vals : List Nat) :
    (vals.flatMap (natToBits w)).length = w * vals.length := by
  induction vals with
  | nil => simp
  | cons v rest ih =>
    rw [List.flatMap_cons, List.length_append, natToBits_length, ih]
    simp only [List.length_cons]
    ring

lemma chunkBitsAux_fuel_irrel (n : Nat) (hn : 0 < n) :
    ∀ fuel fuel' (l : List Bool), l.length ≤ fuel → l.length ≤ fuel' →
      chunkBitsAux n fuel l = chunkBitsAux n fuel' l := by
  intro fuel
  induction fuel with
  | zero =>
    intro fuel' l hl _
    have : l = [] := List.eq_nil_of_length_eq_zero (by omega)
    subst this
    cases fuel' <;> rfl
  | succ fuel ih =>
    intro fuel' l hl hl'
    cases l with
    | nil => cases fuel' <;> rfl
    | cons x xs =>
      cases fuel' with
      | zero => simp at hl'
      | succ fuel'' =>
        show (x :: xs).take n :: chunkBitsAux n fuel ((x :: xs).drop n) =
          (x :: xs).take n :: chunkBitsAux n fuel'' ((x :: xs).drop n)
        rw [ih fuel'' ((x :: xs).drop n) (by simp [List.length_drop] at hl ⊢; omega)
          (by simp [List.length_drop] at hl' ⊢; omega)]

lemma chunk_join (n : Nat) (hn : 0 < n) :
    ∀ (fuel : Nat) (l : List Bool), l.length ≤ fuel → n ∣ l.length →
      ((chunkBitsAux n fuel l).map bitsToNat).flatMap (natToBits n) = l := by
  intro fuel
  induction fuel with
  | zero =>
    intro l hl _
    have : l = [] := List.eq_nil_of_length_eq_zero (by omega)
    subst this
    rfl
  | succ fuel ih =>
    intro l hl hdvd
    cases l with
    | nil => rfl
    | cons x xs =>
      have hlen : n ≤ (x :: xs).length := by
        rcases hdvd with ⟨k, hk⟩
        cases k with
        | zero => simp at hk
        | succ k => rw [hk]; exact Nat.le_mul_of_pos_right n (by omega)
      show ((((x :: xs).take n :: chunkBitsAux n fuel ((x :: xs).drop n)).map
        bitsToNat).flatMap (natToBits n)) = x :: xs
      rw [List.map_cons, List.flatMap_cons]
      have htake : ((x :: xs).take n).length = n := by
        rw [List.length_take]
        omega
      have h1 := natToBits_bitsToNat ((x :: xs).take n)
      rw [htake] at h1
      rw [h1]
      rw [ih ((x :: xs).drop n) (by simp [List.length_drop] at hl ⊢; omega)
        (by rw [List.length_drop]; exact (Nat.dvd_sub' hdvd (dvd_refl n))),
        List.take_append_drop]

lemma chunk_flatMap (w : Nat) (hw : 0 < w) :
    ∀ (fuel : Nat) (vals : List Nat), vals.length ≤ fuel →
      chunkBitsAux w fuel (vals.flatMap (natToBits w)) =
        vals.map (natToBits w) := by
  intro fuel
  induction fuel with
  | zero =>
    intro vals hv
    have : vals = [] := List.eq_nil_of_length_eq_zero (by omega)
    subst this
    rfl
  | succ fuel ih =>
    intro vals hv
    cases vals with
    | nil => rfl
    | cons v rest =>
      have hne : natToBits w v ≠ [] := by
        intro habs
        have := natToBits_length w v
        rw [habs] at this
        simp at this
        omega
      rw [List.flatMap_cons]
      obtain ⟨c0, ls, hcons⟩ := List.exists_cons_of_ne_nil hne
      rw [hcons, List.cons_append]
      show (c0 :: (ls ++ rest.flatMap (natToBits w))).take w ::
          chunkBitsAux w fuel ((c0 :: (ls ++ rest.flatMap (natToBits w))).drop w) =
        natToBits w v :: rest.map (natToBits w)
      rw [← List.cons_append, ← hcons]
      have htake : (natToBits w v ++ rest.flatMap (natToBits w)).take w =
          natToBits w v := by
        have h := List.take_left (natToBits w v) (rest.flatMap (natToBits w))
        rwa [natToBits_length] at h
      have hdrop : (natToBits w v ++ rest.flatMap (natToBits w)).drop w =
          rest.flatMap (natToBits w) := by
        have h := List.drop_left (natToBits w v) (rest.flatMap (natToBits w))
        rwa [natToBits_length] at h
      rw [htake, hdrop, ih rest (by simpa using hv)]

end BitLemmas

section RoundTripLemmas

open Nostr

lemma replicate_false_any (k : Nat) :
    (List.replicate k false).any (fun b => b) = false := by
  induction k with
  | zero => rfl
  | succ k ih => simp [List.replicate_succ, ih]

lemma fromWords_toWords (bytes : List Nat) (hb : ∀ b ∈ bytes, b < 256) :
    fromWords (toWords bytes) = Except.ok bytes := by
  have hbl : (bytes.flatMap (natToBits 8)).length = 8 * bytes.length :=
    flatMap_natToBits_length 8 bytes
  set bits := bytes.flatMap (natToBits 8) with hbits
  set pad := (5 - bits.length % 5) % 5 with hpad
  set padded := bits ++ List.replicate pad false with hpadded
  have hplen : padded.length = bits.length + pad := by
    rw [hpadded, List.length_append, List.length_replicate]
  have hdvd : 5 ∣ padded.length := by
    rw [hplen, hpad]; omega
  have hwords : toWords bytes = (chunkBitsAux 5 padded.length padded).map bitsToNat := rfl
  have hflat : (toWords bytes).flatMap (natToBits 5) = padded := by
    rw [hwords]
    exact chunk_join 5 (by omega) padded.length padded (le_refl _) hdvd
  have hpadlt : pad < 5 := by rw [hpad]; omega
  have hdiv8 : 8 * (padded.length / 8) = 8 * bytes.length := by
    rw [hplen, hbl, hpad, hbl]; omega
  have htake : padded.take (8 * (padded.length / 8)) = bits := by
    rw [hdiv8, ← hbl, hpadded, List.take_left]
  have hdrop : padded.drop (8 * (padded.length / 8)) = List.replicate pad false := by
    rw [hdiv8, ← hbl, hpadded, List.drop_left]
  simp only [fromWords]
  rw [hflat, htake, hdrop]
  rw [if_neg (by rw [List.length_replicate]; omega)]
  rw [if_neg (by rw [replicate_false_any]; simp)]
  have hchunk : chunkBits 8 bits = bytes.map (natToBits 8) := by
    show chunkBitsAux 8 bits.length bits = bytes.map (natToBits 8)
    have hfuel : bytes.length ≤ bits.length := by rw [hbl]; omega
    have := chunk_flatMap 8 (by omega) bits.length bytes hfuel
    rw [← hbits] at this
    exact this
  rw [hchunk, List.map_map]
  have hmap : bytes.map (bitsToNat ∘ natToBits 8) = bytes.map id := by
    apply List.map_congr_left
    intro b hbm
    rw [Function.comp_apply, bitsToNat_natToBits]
    exact Nat.mod_eq_of_lt (by have := hb b hbm; omega)
  rw [hmap, List.map_id]

end RoundTripLemmas

section Nip19Lemmas

open Nostr

lemma hexCharVal_hexDigitChar : ∀ d : Nat, d < 16 →
    hexCharVal (hexDigitChar d) = some d := by decide

lemma hexPairs_bytesToHex (bytes : List Nat) (hb : ∀ b ∈ bytes, b < 256) :
    hexPairs (bytesToHex bytes).data = some bytes := by
  show hexPairs (hexCharsOfBytes bytes) = some bytes
  induction bytes with
  | nil => rfl
  | cons b rest ih =>
    have hb256 : b < 256 := hb b (by simp)
    have hcons : hexCharsOfBytes (b :: rest) =
        hexDigitChar (b / 16) :: hexDigitChar (b % 16) :: hexCharsOfBytes rest := rfl
    rw [hcons, hexPairs,
      hexCharVal_hexDigitChar _ (div16_lt b hb256),
      hexCharVal_hexDigitChar _ (by omega),
      ih (fun x hx => hb x (by simp [hx]))]
    show some ((b / 16 * 16 + b % 16) :: rest) = some (b :: rest)
    have : b / 16 * 16 + b % 16 = b := by omega
    rw [this]

lemma chunkBitsAux_mem_length (n : Nat) :
    ∀ (fuel : Nat) (l : List Bool) (c : List Bool),
      c ∈ chunkBitsAux n fuel l → c.length ≤ n := by
  intro fuel
  induction fuel with
  | zero => intro l c hc; simp [chunkBitsAux] at hc
  | succ fuel ih =>
    intro l c hc
    cases l with
    | nil => simp [chunkBitsAux] at hc
    | cons x xs =>
      rcases List.mem_cons.mp hc with rfl | hmem
      · rw [List.length_take]
        omega
      · exact ih _ _ hmem

lemma chunkBitsAux_length_le (n : Nat) :
    ∀ (fuel : Nat) (l : List Bool), (chunkBitsAux n fuel l).length ≤ fuel := by
  intro fuel
  induction fuel with
  | zero => intro l; simp [chunkBitsAux]
  | succ fuel ih =>
    intro l
    cases l with
    | nil => simp [chunkBitsAux]
    | cons x xs =>
      show ((x :: xs).take n :: chunkBitsAux n fuel ((x :: xs).drop n)).length ≤ fuel + 1
      rw [List.length_cons]
      exact Nat.succ_le_succ (ih _)

lemma toWords_lt (bytes : List Nat) : ∀ w ∈ toWords bytes, w < 32 := by
  intro w hw
  unfold toWords at hw
  rcases List.mem_map.mp hw with ⟨c, hc, rfl⟩
  have hcl : c.length ≤ 5 := chunkBitsAux_mem_length 5 _ _ _ hc
  have := bitsToNat_lt c
  have hpow : 2 ^ c.length ≤ 2 ^ 5 := Nat.pow_le_pow_right (by omega) hcl
  omega

lemma toWords_length_le (bytes : List Nat) :
    (toWords bytes).length ≤ 8 * bytes.length + 4 := by
  unfold toWords chunkBits
  rw [List.length_map]
  set l := bytes.flatMap (natToBits 8) ++
    List.replicate ((5 - (bytes.flatMap (natToBits 8)).length % 5) % 5) false
    with hl
  have h1 := chunkBitsAux_length_le 5 l.length l
  have h2 : l.length ≤ 8 * bytes.length + 4 := by
    rw [hl, List.length_append, List.length_replicate,
      flatMap_natToBits_length]
    omega
  omega

lemma bechChecksum_lt (hrp : String) (ws : List Nat) :
    ∀ y ∈ bechChecksum hrp ws, y < 32 := by
  intro y hy
  simp only [bechChecksum, List.mem_map] at hy
  obtain ⟨i, _, rfl⟩ := hy
  exact Nat.lt_succ_of_le Nat.and_le_right

lemma charsetIdx_getD : ∀ w : Nat, w < 32 →
    charsetIdx (bech32Charset.getD w 'q') = some w := by decide

lemma charset_ne_one : ∀ w : Nat, w < 32 →
    bech32Charset.getD w 'q' ≠ '1' := by decide

lemma wordsOfChars_map (ws : List Nat) (h : ∀ w ∈ ws, w < 32) :
    wordsOfChars (ws.map (fun w => bech32Charset.getD w 'q')) = some ws := by
  induction ws with
  | nil => rfl
  | cons w rest ih =>
    rw [List.map_cons, wordsOfChars,
      charsetIdx_getD w (h w (by simp)),
      ih (fun x hx => h x (by simp [hx]))]

lemma splitChar_no_sep (c : Char) (l : List Char) (h : ∀ x ∈ l, x ≠ c) :
    splitChar c l = [l] := by
  induction l with
  | nil => rfl
  | cons x xs ih =>
    rw [splitChar, if_neg (h x (by simp)),
      ih (fun y hy => h y (by simp [hy]))]

lemma splitChar_append (c : Char) (l1 l2 : List Char)
    (h1 : ∀ x ∈ l1, x ≠ c) (h2 : ∀ x ∈ l2, x ≠ c) :
    splitChar c (l1 ++ c :: l2) = [l1, l2] := by
  induction l1 with
  | nil =>
    rw [List.nil_append, splitChar, if_pos rfl,
      splitChar_no_sep c l2 h2]
  | cons x xs ih =>
    rw [List.cons_append, splitChar, if_neg (h1 x (by simp)),
      ih (fun y hy => h1 y (by simp [hy]))]

lemma lastIdxAux_none (c : Char) (l : List Char) (h : ∀ x ∈ l, x ≠ c) :
    lastIdxAux c l = none := by
  induction l with
  | nil => rfl
  | cons x xs ih =>
    rw [lastIdxAux, ih (fun y hy => h y (by simp [hy]))]
    simp [h x (by simp)]

lemma lastIdxAux_append (c : Char) (l1 l2 : List Char)
    (h2 : ∀ x ∈ l2, x ≠ c) :
    lastIdxAux c (l1 ++ c :: l2) = some l1.length := by
  induction l1 with
  | nil =>
    rw [List.nil_append, lastIdxAux, lastIdxAux_none c l2 h2]
    simp
  | cons x xs ih =>
    rw [List.cons_append, lastIdxAux, ih]
    simp

end Nip19Lemmas

section Nip19Main

open Nostr

lemma bechChecksum_length (hrp : String) (ws : List Nat) :
    (bechChecksum hrp ws).length = 6 := by
  simp [bechChecksum]

lemma npub_chars_ne_one : ∀ x ∈ ['n', 'p', 'u', 'b'], x ≠ '1' := by decide

lemma getNip19FromKey_eq (bytes : List Nat) (hb : ∀ b ∈ bytes, b < 256)
    (hsz : 4 + 7 + (toWords bytes).length ≤ 5000) :
    getNip19FromKey (bytesToHex bytes) =
      Except.ok ("npub" ++ "1" ++ String.mk
        ((toWords bytes ++ bechChecksum "npub" (toWords bytes)).map
          (fun w => bech32Charset.getD w 'q'))) := by
  unfold getNip19FromKey
  rw [hexPairs_bytesToHex bytes hb]
  show bech32Encode "npub" (toWords bytes) Bech32MaxSize = _
  unfold bech32Encode Bech32MaxSize
  rw [if_neg (by
    have h4 : ("npub" : String).length = 4 := rfl
    omega)]

lemma bech32Decode_encoded (ws : List Nat) (hw : ∀ w ∈ ws, w < 32)
    (L : Nat) (hsz : ws.length + 11 ≤ L) :
    bech32Decode ("npub" ++ "1" ++ String.mk
        ((ws ++ bechChecksum "npub" ws).map
          (fun w => bech32Charset.getD w 'q'))) L =
      Except.ok ("npub", ws) := by
  set cks := bechChecksum "npub" ws with hcks
  set chars := (ws ++ cks).map (fun w => bech32Charset.getD w 'q') with hchars
  have hckslen : cks.length = 6 := by rw [hcks]; exact bechChecksum_length _ _
  have hcw : ∀ w ∈ ws ++ cks, w < 32 := by
    intro w hw'
    rcases List.mem_append.mp hw' with h | h
    · exact hw w h
    · exact bechChecksum_lt "npub" ws w (hcks ▸ h)
  have hno1 : ∀ c ∈ chars, c ≠ '1' := by
    intro c hc
    rw [hchars] at hc
    rcases List.mem_map.mp hc with ⟨w, hwm, rfl⟩
    exact charset_ne_one w (hcw w hwm)
  have hcl : chars.length = ws.length + 6 := by
    rw [hchars, List.length_map, List.length_append, hckslen]
  have hdata : ("npub" ++ "1" ++ String.mk chars).data =
      ['n', 'p', 'u', 'b'] ++ '1' :: chars := by
    rw [String.data_append, String.data_append]
    rfl
  have hslen : ("npub" ++ "1" ++ String.mk chars).length = 5 + chars.length := by
    show ("npub" ++ "1" ++ String.mk chars).data.length = 5 + chars.length
    rw [hdata]
    simp
    omega
  unfold bech32Decode
  rw [hslen]
  rw [if_neg (by omega), if_neg (by omega)]
  have hlast : lastIndexOf1 ("npub" ++ "1" ++ String.mk chars).data = some 4 := by
    rw [hdata]
    unfold lastIndexOf1
    have := lastIdxAux_append '1' ['n', 'p', 'u', 'b'] chars hno1
    simpa using this
  rw [hlast]
  show (let hrp := String.mk (("npub" ++ "1" ++ String.mk chars).data.take 4)
        let dataPart := ("npub" ++ "1" ++ String.mk chars).data.drop (4 + 1)
        if dataPart.length < 6 then Except.error "Data too short"
        else
          match wordsOfChars dataPart with
          | none => Except.error "Unknown letter"
          | some words =>
            let dataWords := words.take (words.length - 6)
            let cksum := words.drop (words.length - 6)
            if cksum = bechChecksum hrp dataWords then
              Except.ok (hrp, dataWords)
            else Except.error "Invalid checksum") =
      Except.ok ("npub", ws)
  have htake4 : ("npub" ++ "1" ++ String.mk chars).data.take 4 =
      ['n', 'p', 'u', 'b'] := by rw [hdata]; rfl
  have hdrop5 : ("npub" ++ "1" ++ String.mk chars).data.drop (4 + 1) = chars := by
    rw [hdata]; rfl
  simp only [htake4, hdrop5]
  rw [if_neg (by omega)]
  have hwoc : wordsOfChars chars = some (ws ++ cks) := by
    rw [hchars]
    exact wordsOfChars_map (ws ++ cks) hcw
  rw [hwoc]
  show (let dataWords := (ws ++ cks).take ((ws ++ cks).length - 6)
        let cksum := (ws ++ cks).drop ((ws ++ cks).length - 6)
        if cksum = bechChecksum (String.mk ['n', 'p', 'u', 'b']) dataWords then
          Except.ok (String.mk ['n', 'p', 'u', 'b'], dataWords)
        else Except.error "Invalid checksum") =
      Except.ok ("npub", ws)
  have hlen2 : (ws ++ cks).length - 6 = ws.length := by
    rw [List.length_append, hckslen]
    omega
  have htakeW : (ws ++ cks).take ((ws ++ cks).length - 6) = ws := by
    rw [hlen2]
    exact List.take_left ws cks
  have hdropW : (ws ++ cks).drop ((ws ++ cks).length - 6) = cks := by
    rw [hlen2]
    exact List.drop_left ws cks
  simp only [htakeW, hdropW]
  rfl

end Nip19Main

section Nip19Theorems

open Nostr

lemma getKeyFromNip19_encoded (ws : List Nat) (hw : ∀ w ∈ ws, w < 32)
    (hsz : ws.length ≤ 1489) :
    getKeyFromNip19 ("npub" ++ "1" ++ String.mk
        ((ws ++ bechChecksum "npub" ws).map
          (fun w => bech32Charset.getD w 'q'))) =
      Except.map bytesToHex (fromWords ws) := by
  set cks := bechChecksum "npub" ws with hcks
  set chars := (ws ++ cks).map (fun w => bech32Charset.getD w 'q') with hchars
  have hcw : ∀ w ∈ ws ++ cks, w < 32 := by
    intro w hw'
    rcases List.mem_append.mp hw' with h | h
    · exact hw w h
    · exact bechChecksum_lt "npub" ws w (hcks ▸ h)
  have hno1 : ∀ c ∈ chars, c ≠ '1' := by
    intro c hc
    rw [hchars] at hc
    rcases List.mem_map.mp hc with ⟨w, hwm, rfl⟩
    exact charset_ne_one w (hcw w hwm)
  have hdata : ("npub" ++ "1" ++ String.mk chars).data =
      ['n', 'p', 'u', 'b'] ++ '1' :: chars := by
    rw [String.data_append, String.data_append]
    rfl
  have hsplit : splitChar '1' ("npub" ++ "1" ++ String.mk chars).data =
      [['n', 'p', 'u', 'b'], chars] := by
    rw [hdata]
    exact splitChar_append '1' _ chars npub_chars_ne_one hno1
  unfold getKeyFromNip19
  rw [hsplit]
  show (do
      let code ← bech32Decode
        (String.mk ['n', 'p', 'u', 'b'] ++ "1" ++ String.mk chars) 1500
      let data ← fromWords code.2
      pure (bytesToHex data) : Except String String) =
    Except.map bytesToHex (fromWords ws)
  have hmk : (String.mk ['n', 'p', 'u', 'b'] : String) = "npub" := rfl
  rw [hmk, bech32Decode_encoded ws hw 1500 (by omega)]
  show (fromWords ws >>= fun data => pure (bytesToHex data) :
      Except String String) = Except.map bytesToHex (fromWords ws)
  cases fromWords ws <;> rfl

/-- C8: for every 32-byte key (given canonically as its lowercase hex
string), bech32-decoding the bech32 encoding returns the key itself:
`getKeyFromNip19 (getNip19FromKey k) = k`. -/
theorem C8_nip19_roundtrip (bytes : List Nat) (hlen : bytes.length = 32)
    (hb : ∀ b ∈ bytes, b < 256) :
    ∃ s : String,
      Nostr.getNip19FromKey (Nostr.bytesToHex bytes) = Except.ok s ∧
      Nostr.getKeyFromNip19 s = Except.ok (Nostr.bytesToHex bytes) := by
  have hwlt := toWords_lt bytes
  have hwlen := toWords_length_le bytes
  refine ⟨_, getNip19FromKey_eq bytes hb (by omega), ?_⟩
  rw [getKeyFromNip19_encoded (toWords bytes) hwlt (by omega)]
  rw [fromWords_toWords bytes hb]
  rfl

/-- Witness for C8 at the all-zero 32-byte key. -/
theorem C8_nip19_roundtrip_witness :
    (List.replicate 32 0 : List Nat).length = 32 ∧
    (∀ b ∈ (List.replicate 32 0 : List Nat), b < 256) ∧
    ∃ s : String,
      Nostr.getNip19FromKey (Nostr.bytesToHex (List.replicate 32 0)) =
        Except.ok s ∧
      Nostr.getKeyFromNip19 s =
        Except.ok (Nostr.bytesToHex (List.replicate 32 0)) :=
  ⟨by decide, by decide,
    C8_nip19_roundtrip (List.replicate 32 0) (by decide) (by decide)⟩

end Nip19Theorems

section DecodeLimit

open Nostr

lemma toWords_flatMap5 (bytes : List Nat) :
    (toWords bytes).flatMap (natToBits 5) =
      bytes.flatMap (natToBits 8) ++
        List.replicate
          ((5 - (bytes.flatMap (natToBits 8)).length % 5) % 5) false := by
  set bits := bytes.flatMap (natToBits 8) with hbits
  set pad := (5 - bits.length % 5) % 5 with hpad
  set padded := bits ++ List.replicate pad false with hpadded
  have hplen : padded.length = bits.length + pad := by
    rw [hpadded, List.length_append, List.length_replicate]
  have hdvd : 5 ∣ padded.length := by
    rw [hplen, hpad]; omega
  have hwords : toWords bytes =
      (chunkBitsAux 5 padded.length padded).map bitsToNat := rfl
  rw [hwords]
  exact chunk_join 5 (by omega) padded.length padded (le_refl _) hdvd

lemma toWords_length5 (bytes : List Nat) :
    5 * (toWords bytes).length =
      8 * bytes.length + (5 - (8 * bytes.length) % 5) % 5 := by
  have h := congrArg List.length (toWords_flatMap5 bytes)
  rw [flatMap_natToBits_length, List.length_append, List.length_replicate,
    flatMap_natToBits_length] at h
  exact h

lemma npubStr_length (chars : List Char) :
    ("npub" ++ "1" ++ String.mk chars).length = 5 + chars.length := by
  show ("npub" ++ "1" ++ String.mk chars).data.length = 5 + chars.length
  rw [String.data_append, String.data_append]
  simp
  omega

lemma getKeyFromNip19_too_long (ws : List Nat) (hw : ∀ w ∈ ws, w < 32)
    (hsz : 1490 ≤ ws.length) :
    getKeyFromNip19 ("npub" ++ "1" ++ String.mk
        ((ws ++ bechChecksum "npub" ws).map
          (fun w => bech32Charset.getD w 'q'))) =
      Except.error "Wrong string length" := by
  set cks := bechChecksum "npub" ws with hcks
  set chars := (ws ++ cks).map (fun w => bech32Charset.getD w 'q') with hchars
  have hckslen : cks.length = 6 := by rw [hcks]; exact bechChecksum_length _ _
  have hcw : ∀ w ∈ ws ++ cks, w < 32 := by
    intro w hw'
    rcases List.mem_append.mp hw' with h | h
    · exact hw w h
    · exact bechChecksum_lt "npub" ws w (hcks ▸ h)
  have hno1 : ∀ c ∈ chars, c ≠ '1' := by
    intro c hc
    rw [hchars] at hc
    rcases List.mem_map.mp hc with ⟨w, hwm, rfl⟩
    exact charset_ne_one w (hcw w hwm)
  have hcl : chars.length = ws.length + 6 := by
    rw [hchars, List.length_map, List.length_append, hckslen]
  have hdata : ("npub" ++ "1" ++ String.mk chars).data =
      ['n', 'p', 'u', 'b'] ++ '1' :: chars := by
    rw [String.data_append, String.data_append]
    rfl
  have hsplit : splitChar '1' ("npub" ++ "1" ++ String.mk chars).data =
      [['n', 'p', 'u', 'b'], chars] := by
    rw [hdata]
    exact splitChar_append '1' _ chars npub_chars_ne_one hno1
  unfold getKeyFromNip19
  rw [hsplit]
  show (do
      let code ← bech32Decode
        (String.mk ['n', 'p', 'u', 'b'] ++ "1" ++ String.mk chars) 1500
      let data ← fromWords code.2
      pure (bytesToHex data) : Except String String) =
    Except.error "Wrong string length"
  have hmk : (String.mk ['n', 'p', 'u', 'b'] : String) = "npub" := rfl
  rw [hmk]
  have hdec : bech32Decode ("npub" ++ "1" ++ String.mk chars) 1500 =
      Except.error "Wrong string length" := by
    unfold bech32Decode
    rw [npubStr_length]
    rw [if_pos (by omega)]
  rw [hdec]
  rfl

end DecodeLimit

/-- C6 (amended): the bech32 decode used by `getKeyFromNip19` is restricted
only by the hard-coded limit 1500 (the `Bech32MaxSize = 5000` constant is
used only by `getNip19FromKey`'s encoder): decoding with limit 1500 agrees
with decoding under any larger limit on strings of length at most 1500, the
64-byte payload below encodes to a well-formed 114-character string — well
beyond the common 90-character default — that decodes back successfully,
while the 940-byte payload encodes (within the 5000 limit) to a well-formed
1515-character string that `getKeyFromNip19` rejects: decode is limited to
1500 characters, not ~5000. -/
theorem C6_decode_length_limit :
    (∀ (s : String) (L : Nat), s.length ≤ 1500 → s.length ≤ L →
      Nostr.bech32Decode s 1500 = Nostr.bech32Decode s L) ∧
    (∀ bytes : List Nat, (∀ b ∈ bytes, b < 256) → bytes.length = 64 →
      ∃ s : String, Nostr.getNip19FromKey (Nostr.bytesToHex bytes) =
          Except.ok s ∧
        90 < s.length ∧ s.length ≤ 1500 ∧
        Nostr.getKeyFromNip19 s = Except.ok (Nostr.bytesToHex bytes)) ∧
    (∀ bytes : List Nat, (∀ b ∈ bytes, b < 256) → bytes.length = 940 →
      ∃ s : String, Nostr.getNip19FromKey (Nostr.bytesToHex bytes) =
          Except.ok s ∧
        s.length = 1515 ∧ s.length ≤ Nostr.Bech32MaxSize ∧
        Nostr.bech32Decode s Nostr.Bech32MaxSize =
          Except.ok ("npub", Nostr.toWords bytes) ∧
        Nostr.getKeyFromNip19 s = Except.error "Wrong string length") := by
  refine ⟨?_, ?_, ?_⟩
  · intro s L h1500 hL
    unfold Nostr.bech32Decode
    have h1 : ¬(1500 < s.length) := by omega
    have h2 : ¬(L < s.length) := by omega
    rw [if_neg h1, if_neg h2]
  · intro bytes hb hlen
    have hlw : 5 * (Nostr.toWords bytes).length =
        8 * bytes.length + (5 - (8 * bytes.length) % 5) % 5 :=
      toWords_length5 bytes
    rw [hlen] at hlw
    have hlw' : (Nostr.toWords bytes).length = 103 := by omega
    have hwlt := toWords_lt bytes
    refine ⟨_, getNip19FromKey_eq bytes hb (by omega), ?_, ?_, ?_⟩
    · rw [npubStr_length, List.length_map, List.length_append,
        bechChecksum_length, hlw']
      omega
    · rw [npubStr_length, List.length_map, List.length_append,
        bechChecksum_length, hlw']
      omega
    · rw [getKeyFromNip19_encoded (Nostr.toWords bytes) hwlt (by omega)]
      rw [fromWords_toWords bytes hb]
      rfl
  · intro bytes hb hlen
    have hlw : 5 * (Nostr.toWords bytes).length =
        8 * bytes.length + (5 - (8 * bytes.length) % 5) % 5 :=
      toWords_length5 bytes
    rw [hlen] at hlw
    have hlw' : (Nostr.toWords bytes).length = 1504 := by omega
    have hwlt := toWords_lt bytes
    refine ⟨_, getNip19FromKey_eq bytes hb (by omega), ?_, ?_, ?_, ?_⟩
    · rw [npubStr_length, List.length_map, List.length_append,
        bechChecksum_length, hlw']
    · rw [npubStr_length, List.length_map, List.length_append,
        bechChecksum_length, hlw']
      show 5 + (1504 + 6) ≤ 5000
      omega
    · exact bech32Decode_encoded (Nostr.toWords bytes) hwlt
        Nostr.Bech32MaxSize (by rw [hlw']; show 1504 + 11 ≤ 5000; omega)
    · exact getKeyFromNip19_too_long (Nostr.toWords bytes) hwlt (by omega)

/-- Witness for C6 at the all-zero 64-byte payload and a short concrete
string for the limit-agreement clause. -/
theorem C6_decode_length_limit_witness :
    Nostr.bech32Decode "a12uel5l" 1500 = Nostr.bech32Decode "a12uel5l" 5000 ∧
    ∃ s : String,
      Nostr.getNip19FromKey (Nostr.bytesToHex (List.replicate 64 0)) =
        Except.ok s ∧
      90 < s.length ∧ s.length ≤ 1500 ∧
      Nostr.getKeyFromNip19 s =
        Except.ok (Nostr.bytesToHex (List.replicate 64 0)) :=
  ⟨C6_decode_length_limit.1 "a12uel5l" 5000 (by decide) (by decide),
    C6_decode_length_limit.2.1 (List.replicate 64 0) (by decide) (by decide)⟩

/-- Counterexample to C6 as stated: the 940-byte payload's encoding is a
well-formed bech32 string (its decode succeeds under the encoder's own 5000
limit) of length 1515 ≤ 5000, yet `getKeyFromNip19` fails on it — the
decoder is limited to 1500 characters, not ~5000. -/
theorem C6_decode_length_limit_counterexample :
    ∃ s : String,
      Nostr.getNip19FromKey (Nostr.bytesToHex (List.replicate 940 0)) =
        Except.ok s ∧
      s.length = 1515 ∧ s.length ≤ Nostr.Bech32MaxSize ∧
      (Nostr.bech32Decode s Nostr.Bech32MaxSize).isOk = true ∧
      Nostr.getKeyFromNip19 s = Except.error "Wrong string length" := by
  have hb : ∀ b ∈ (List.replicate 940 0 : List Nat), b < 256 := by
    intro b hbm
    rw [List.eq_of_mem_replicate hbm]
    omega
  have hlen : (List.replicate 940 0 : List Nat).length = 940 :=
    List.length_replicate 940 0
  have hlw : 5 * (Nostr.toWords (List.replicate 940 0)).length =
      8 * (List.replicate 940 0 : List Nat).length +
        (5 - (8 * (List.replicate 940 0 : List Nat).length) % 5) % 5 :=
    toWords_length5 _
  rw [hlen] at hlw
  have hlw' : (Nostr.toWords (List.replicate 940 0)).length = 1504 := by omega
  have hwlt := toWords_lt (List.replicate 940 0)
  refine ⟨_, getNip19FromKey_eq _ hb (by omega), ?_, ?_, ?_, ?_⟩
  · rw [npubStr_length, List.length_map, List.length_append,
      bechChecksum_length, hlw']
  · rw [npubStr_length, List.length_map, List.length_append,
      bechChecksum_length, hlw']
    show 5 + (1504 + 6) ≤ 5000
    omega
  · rw [bech32Decode_encoded (Nostr.toWords (List.replicate 940 0)) hwlt
      Nostr.Bech32MaxSize (by rw [hlw']; show 1504 + 11 ≤ 5000; omega)]
    rfl
  · exact getKeyFromNip19_too_long _ hwlt (by omega)

namespace Nostr

/-- The key slots of the `Nostr` client (`_privateKey` / `_publicKey`,
lines 84-85), both initially unset. -/
structure ClientKeys where
  _privateKey : Option String := none
  _publicKey : Option String := none
deriving DecidableEq, Repr

/-- The stored public key is the schnorr public key derived from the stored
private key (the spec's KeyPair invariant).  `derivePub` stands for
`schnorr.getPublicKey` of `secp.ts`, which is not under `src/`
(spec-modelled: an opaque derivation); the code hex-encodes its bytes with
`encode` of `src/nostr/encode.ts` and decodes them back to a string. -/
def keyInvariant (derivePub : String → List Nat) (st : ClientKeys) : Prop :=
  ∀ p : String, st._privateKey = some p →
    st._publicKey = some (asciiString (HexEnc.encode (derivePub p)))

/-- The `privateKey` setter (lines 105-114): an `nsec`-prefixed value is
first bech32-decoded (a decode failure throws and leaves the state
unchanged — modelled as `Except.error`); a truthy (non-empty) value sets
the private key and immediately recomputes the public key. -/
def setPrivateKey (derivePub : String → List Nat) (st : ClientKeys)
    (value : String) : Except String ClientKeys := do
  let v ← if value.take 4 = "nsec" then getKeyFromNip19 value else pure value
  if v = "" then pure st
  else pure { st with
    _privateKey := some v
    _publicKey := some (asciiString (HexEnc.encode (derivePub v))) }

/-- The `publicKey` setter (lines 116-121): an `npub`-prefixed value is
bech32-decoded; the public key is then overwritten unconditionally, with no
consistency check against the stored private key. -/
def setPublicKey (st : ClientKeys) (value : String) :
    Except String ClientKeys := do
  let v ← if value.take 4 = "npub" then getKeyFromNip19 value else pure value
  pure { st with _publicKey := some v }

end Nostr

/-- C9 (amended): the `privateKey` setter establishes and preserves the
invariant "stored public key = schnorr public key derived from the stored
private key" (a non-empty raw value sets both slots consistently; an empty
or failing value leaves the state unchanged), and the operations that do
not touch the key slots preserve it trivially — but the `publicKey` setter
does not preserve it (see the counterexample): the invariant holds only for
states reached without the `publicKey` setter after the last private-key
set. -/
theorem C9_key_invariant (derivePub : String → List Nat) :
    (∀ (st : Nostr.ClientKeys) (v : String) (st' : Nostr.ClientKeys),
      Nostr.setPrivateKey derivePub st v = Except.ok st' →
      Nostr.keyInvariant derivePub st → Nostr.keyInvariant derivePub st') ∧
    (∀ (st : Nostr.ClientKeys) (v : String), v.take 4 ≠ "nsec" → v ≠ "" →
      Nostr.setPrivateKey derivePub st v = Except.ok
        { _privateKey := some v,
          _publicKey :=
            some (Nostr.asciiString (HexEnc.encode (derivePub v))) }) := by
  constructor
  · intro st v st' hok hinv
    unfold Nostr.setPrivateKey at hok
    by_cases hns : v.take 4 = "nsec"
    · rw [if_pos hns] at hok
      cases hdec : Nostr.getKeyFromNip19 v with
      | error e => rw [hdec] at hok; cases hok
      | ok v' =>
        rw [hdec] at hok
        by_cases hv : v' = ""
        · rw [show ((Except.ok v' : Except String String) >>= fun v =>
              if v = "" then pure st
              else pure { st with
                _privateKey := some v
                _publicKey := some (Nostr.asciiString (HexEnc.encode (derivePub v))) }) =
              (if v' = "" then pure st
              else pure { st with
                _privateKey := some v'
                _publicKey := some (Nostr.asciiString (HexEnc.encode (derivePub v'))) })
            from rfl, if_pos hv] at hok
          cases hok
          exact hinv
        · rw [show ((Except.ok v' : Except String String) >>= fun v =>
              if v = "" then pure st
              else pure { st with
                _privateKey := some v
                _publicKey := some (Nostr.asciiString (HexEnc.encode (derivePub v))) }) =
              (if v' = "" then pure st
              else pure { st with
                _privateKey := some v'
                _publicKey := some (Nostr.asciiString (HexEnc.encode (derivePub v'))) })
            from rfl, if_neg hv] at hok
          cases hok
          intro p hp
          simp only [Option.some_inj] at hp
          rw [← hp]
    · rw [if_neg hns] at hok
      by_cases hv : v = ""
      · rw [show ((pure v : Except String String) >>= fun v =>
            if v = "" then pure st
            else pure { st with
              _privateKey := some v
              _publicKey := some (Nostr.asciiString (HexEnc.encode (derivePub v))) }) =
            (if v = "" then pure st
            else pure { st with
              _privateKey := some v
              _publicKey := some (Nostr.asciiString (HexEnc.encode (derivePub v))) })
          from rfl, if_pos hv] at hok
        cases hok
        exact hinv
      · rw [show ((pure v : Except String String) >>= fun v =>
            if v = "" then pure st
            else pure { st with
              _privateKey := some v
              _publicKey := some (Nostr.asciiString (HexEnc.encode (derivePub v))) }) =
            (if v = "" then pure st
            else pure { st with
              _privateKey := some v
              _publicKey := some (Nostr.asciiString (HexEnc.encode (derivePub v))) })
          from rfl, if_neg hv] at hok
        cases hok
        intro p hp
        simp only [Option.some_inj] at hp
        rw [← hp]
  · intro st v hns hv
    unfold Nostr.setPrivateKey
    rw [if_neg hns]
    show (if v = "" then pure st
      else pure { st with
        _privateKey := some v
        _publicKey := some (Nostr.asciiString (HexEnc.encode (derivePub v))) } :
        Except String Nostr.ClientKeys) = _
    rw [if_neg hv]
    rfl

/-- Witness for C9: setting the raw private key "aa" under a concrete
derivation establishes the invariant. -/
theorem C9_key_invariant_witness :
    (("aa" : String).take 4 ≠ "nsec") ∧ (("aa" : String) ≠ "") ∧
    Nostr.setPrivateKey (fun _ => [1]) {} "aa" = Except.ok
      { _privateKey := some "aa",
        _publicKey :=
          some (Nostr.asciiString (HexEnc.encode
            ((fun _ => [1] : String → List Nat) "aa"))) } :=
  ⟨by decide, by decide,
    (C9_key_invariant (fun _ => [1])).2 {} "aa" (by decide) (by decide)⟩

/-- Counterexample to C9 as stated: after setting a private key, the
`publicKey` setter overwrites the stored public key with an arbitrary
value, breaking the invariant — not every public-interface operation
preserves it. -/
theorem C9_key_invariant_counterexample :
    ∃ st1 st2 : Nostr.ClientKeys,
      Nostr.setPrivateKey (fun _ => [1]) {} "aa" = Except.ok st1 ∧
      Nostr.keyInvariant (fun _ => [1]) st1 ∧
      Nostr.setPublicKey st1 "bb" = Except.ok st2 ∧
      st2._privateKey = some "aa" ∧ st2._publicKey = some "bb" ∧
      ¬ Nostr.keyInvariant (fun _ => [1]) st2 := by
  refine ⟨_, _, rfl, ?_, rfl, rfl, rfl, ?_⟩
  · intro p hp
    simp only [Option.some_inj] at hp
    rw [← hp]
  · intro hinv
    have := hinv "aa" rfl
    simp only [Option.some_inj] at this
    have hne : ("bb" : String) ≠
        Nostr.asciiString (HexEnc.encode
          ((fun _ => [1] : String → List Nat) "aa")) := by decide
    exact hne this
